import Mathlib

set_option linter.unusedVariables false

namespace IndexerAgent

/-- Identifier type of an indexing rule (`SubgraphIdentifierType` in indexer-common). -/
inductive SubgraphIdentifierType where
  | GLOBAL
  | DEPLOYMENT
  | SUBGRAPH
deriving DecidableEq, Repr

/-- Decision basis of an indexing rule (`IndexingDecisionBasis` in indexer-common). -/
inductive IndexingDecisionBasis where
  | RULES
  | ALWAYS
  | NEVER
  | OFFCHAIN
deriving DecidableEq, Repr

/-- Allocation management mode of a network (`AllocationManagementMode`). -/
inductive AllocationManagementMode where
  | AUTO
  | OVERSIGHT
  | MANUAL
deriving DecidableEq, Repr

/-- A subgraph deployment identifier. The source's `SubgraphDeploymentID` is a 32-byte
content hash with two injective textual renderings (`bytes32` and `ipfsHash`) of the same
bytes, so equality of either rendering coincides with equality of the bytes; we keep the
canonical `bytes32` rendering and use it for the source's `toString()` as well. The `oid`
field models JavaScript object identity (reference equality), which is what a JavaScript
`Set` of objects and `==` between two objects compare; it plays no role in the comparisons
the source performs through `bytes32` or `toString()`. -/
structure SubgraphDeploymentID where
  bytes32 : String
  oid : Nat
deriving DecidableEq, Repr

/-- An indexing rule (`IndexingRuleAttributes`), restricted to the fields the reconciliation
code reads. -/
structure IndexingRule where
  identifier : String
  identifierType : SubgraphIdentifierType
  decisionBasis : IndexingDecisionBasis
  allocationAmount : Nat
  allocationLifetime : Option Nat
  protocolNetwork : String
deriving DecidableEq, Repr

/-- One version of a subgraph. -/
structure SubgraphVersion where
  version : Nat
  createdAt : Nat
  deployment : SubgraphDeploymentID
deriving DecidableEq, Repr

/-- A subgraph with its version history. -/
structure Subgraph where
  id : String
  versionCount : Nat
  versions : List SubgraphVersion
deriving DecidableEq, Repr

/-- The `subgraphDeployment` record carried by an allocation; the code reads its `id`. -/
structure SubgraphDeployment where
  id : SubgraphDeploymentID
deriving DecidableEq, Repr

/-- An on-chain allocation, restricted to the fields the reconciliation code reads.
Optional fields (`closedAtEpochStartBlockHash`, `previousEpochStartBlockHash`, `poi`) are
`undefined` in the source when absent, modelled as `none`. -/
structure Allocation where
  id : String
  indexer : String
  subgraphDeployment : SubgraphDeployment
  allocatedTokens : Nat
  createdAtEpoch : Nat
  closedAtEpoch : Nat
  closedAtEpochStartBlockHash : Option String
  previousEpochStartBlockHash : Option String
  poi : Option String
deriving DecidableEq, Repr

/-- The `ruleMatch` component of an allocation decision. -/
structure RuleMatch where
  rule : Option IndexingRule
  reason : String
deriving DecidableEq, Repr

/-- An allocation decision produced by the deployment evaluator. -/
structure AllocationDecision where
  deployment : SubgraphDeploymentID
  toAllocate : Bool
  ruleMatch : RuleMatch
deriving DecidableEq, Repr

/-- Source `deploymentInList` (src part_001:118-122): membership in a deployment list,
compared by `bytes32`. -/
def deploymentInList (list : List SubgraphDeploymentID)
    (deployment : SubgraphDeploymentID) : Bool :=
  list.any fun item => item.bytes32 == deployment.bytes32

/-- Source `deploymentRuleInList` (part_001:124-133): some rule of the list has
`identifierType == DEPLOYMENT` and an identifier denoting the given deployment. Rule
identifiers are kept in the canonical rendering, so the source's round-trip through
`new SubgraphDeploymentID(rule.identifier).toString() == deployment.toString()` is string
equality with the deployment's canonical rendering. -/
def deploymentRuleInList (list : List IndexingRule)
    (deployment : SubgraphDeploymentID) : Bool :=
  list.any fun rule =>
    rule.identifierType == SubgraphIdentifierType.DEPLOYMENT &&
      rule.identifier == deployment.bytes32

/-- Membership of a string in a list of strings. -/
def strMem (seen : List String) (b : String) : Bool :=
  seen.any fun s => s == b

/-- Accumulator version of `uniqueDeployments`: drop a deployment when its `bytes32` was
already seen, otherwise keep it and record its `bytes32`. -/
def uniqueDeploymentsGo (seen : List String) :
    List SubgraphDeploymentID → List SubgraphDeploymentID
  | [] => []
  | d :: rest =>
    if strMem seen d.bytes32 then uniqueDeploymentsGo seen rest
    else d :: uniqueDeploymentsGo (d.bytes32 :: seen) rest

/-- Source `uniqueDeployments` (part_001:135-143): keep only the first occurrence of each
`bytes32` (the source filters by `findIndex(...) === index`, which keeps exactly the first
occurrence of each `bytes32`). -/
def uniqueDeployments (deployments : List SubgraphDeploymentID) :
    List SubgraphDeploymentID :=
  uniqueDeploymentsGo [] deployments

/-- Membership of a `bytes32` value in a deployment list. -/
def bytesMem (list : List SubgraphDeploymentID) (b : String) : Bool :=
  list.any fun d => d.bytes32 == b

/-- Augmentation of `targetDeployments` performed at the start of
`Agent.reconcileDeployments` (part_001:846-863): push each configured network subgraph
deployment and then each static offchain subgraph, skipping entries already present by
`bytes32`. -/
def augmentTargetDeployments
    (networkSubgraphDeployments : List (Option SubgraphDeploymentID))
    (offchainSubgraphs : List SubgraphDeploymentID)
    (targetDeployments : List SubgraphDeploymentID) : List SubgraphDeploymentID :=
  let t1 := networkSubgraphDeployments.foldl
    (fun t onsd =>
      match onsd with
      | some d => if deploymentInList t d then t else t ++ [d]
      | none => t)
    targetDeployments
  offchainSubgraphs.foldl
    (fun t d => if deploymentInList t d then t else t ++ [d]) t1

/-- The `deploy` and `remove` sets computed by `Agent.reconcileDeployments`
(part_001:838-897): augment the target list, deduplicate active and target by `bytes32`,
compute the unique deployments of the eligible allocations, then
`deploy = target` entries absent from `active` and `remove = active` entries absent from
both `target` and the eligible allocation deployments, all compared by `bytes32`. -/
def reconcileDeploymentsSets
    (networkSubgraphDeployments : List (Option SubgraphDeploymentID))
    (offchainSubgraphs : List SubgraphDeploymentID)
    (activeDeployments targetDeployments : List SubgraphDeploymentID)
    (eligibleAllocations : List Allocation) :
    List SubgraphDeploymentID × List SubgraphDeploymentID :=
  let target := uniqueDeployments
    (augmentTargetDeployments networkSubgraphDeployments offchainSubgraphs
      targetDeployments)
  let active := uniqueDeployments activeDeployments
  let eligibleAllocationDeployments := uniqueDeployments
    (eligibleAllocations.map fun allocation => allocation.subgraphDeployment.id)
  let deploy := target.filter fun deployment => !(deploymentInList active deployment)
  let remove := active.filter fun deployment =>
    !(deploymentInList target deployment) &&
      !(deploymentInList eligibleAllocationDeployments deployment)
  (deploy, remove)

theorem bytesMem_iff (list : List SubgraphDeploymentID) (b : String) :
    bytesMem list b = true ↔ ∃ d ∈ list, d.bytes32 = b := by
  simp [bytesMem, List.any_eq_true]

theorem deploymentInList_eq_bytesMem (list : List SubgraphDeploymentID)
    (d : SubgraphDeploymentID) : deploymentInList list d = bytesMem list d.bytes32 := by
  simp [deploymentInList, bytesMem]

theorem bytesMem_uniqueDeploymentsGo (seen : List String)
    (l : List SubgraphDeploymentID) (b : String) :
    bytesMem (uniqueDeploymentsGo seen l) b =
      (bytesMem l b && !(strMem seen b)) := by
  induction l generalizing seen with
  | nil => simp [uniqueDeploymentsGo, bytesMem]
  | cons d rest ih =>
    rw [uniqueDeploymentsGo]
    by_cases hb : d.bytes32 = b
    · subst hb
      by_cases hmem : strMem seen d.bytes32
      · rw [if_pos hmem, ih, hmem]
        simp
      · rw [if_neg hmem]
        simp only [Bool.not_eq_true] at hmem
        simp [bytesMem, hmem]
    · have hbeq : (d.bytes32 == b) = false := by simp [hb]
      by_cases hmem : strMem seen d.bytes32
      · rw [if_pos hmem, ih]
        rw [show bytesMem (d :: rest) b = ((d.bytes32 == b) || bytesMem rest b)
          from rfl, hbeq, Bool.false_or]
      · rw [if_neg hmem]
        rw [show bytesMem (d :: uniqueDeploymentsGo (d.bytes32 :: seen) rest) b =
            ((d.bytes32 == b) ||
              bytesMem (uniqueDeploymentsGo (d.bytes32 :: seen) rest) b)
          from rfl, hbeq, Bool.false_or, ih]
        rw [show strMem (d.bytes32 :: seen) b = ((d.bytes32 == b) || strMem seen b)
          from rfl, hbeq, Bool.false_or]
        rw [show bytesMem (d :: rest) b = ((d.bytes32 == b) || bytesMem rest b)
          from rfl, hbeq, Bool.false_or]

theorem bytesMem_uniqueDeployments (l : List SubgraphDeploymentID) (b : String) :
    bytesMem (uniqueDeployments l) b = bytesMem l b := by
  rw [uniqueDeployments, bytesMem_uniqueDeploymentsGo]
  simp [strMem]

theorem mem_of_mem_uniqueDeploymentsGo (seen : List String)
    (l : List SubgraphDeploymentID) (d : SubgraphDeploymentID)
    (h : d ∈ uniqueDeploymentsGo seen l) : d ∈ l := by
  induction l generalizing seen with
  | nil => simp [uniqueDeploymentsGo] at h
  | cons x rest ih =>
    rw [uniqueDeploymentsGo] at h
    by_cases hmem : strMem seen x.bytes32
    · rw [if_pos hmem] at h
      exact List.mem_cons_of_mem _ (ih _ h)
    · rw [if_neg hmem] at h
      rcases List.mem_cons.mp h with h | h
      · exact h ▸ List.mem_cons_self _ _
      · exact List.mem_cons_of_mem _ (ih _ h)

theorem mem_of_mem_uniqueDeployments (l : List SubgraphDeploymentID)
    (d : SubgraphDeploymentID) (h : d ∈ uniqueDeployments l) : d ∈ l :=
  mem_of_mem_uniqueDeploymentsGo [] l d h

theorem bytesMem_of_mem (l : List SubgraphDeploymentID) (d : SubgraphDeploymentID)
    (h : d ∈ l) : bytesMem l d.bytes32 = true :=
  (bytesMem_iff l d.bytes32).mpr ⟨d, h, rfl⟩

theorem bytesMem_filter (l : List SubgraphDeploymentID)
    (p : SubgraphDeploymentID → Bool) (b : String) :
    bytesMem (l.filter p) b = l.any fun d => p d && (d.bytes32 == b) := by
  induction l with
  | nil => simp [bytesMem]
  | cons d rest ih =>
    cases hp : p d with
    | false =>
      rw [List.filter_cons_of_neg (by simp [hp]), ih, List.any_cons, hp,
        Bool.false_and, Bool.false_or]
    | true =>
      rw [List.filter_cons_of_pos (by simp [hp])]
      rw [show bytesMem (d :: List.filter p rest) b =
        ((d.bytes32 == b) || bytesMem (List.filter p rest) b) from rfl]
      rw [ih, List.any_cons, hp, Bool.true_and]

theorem any_and_bytes (l : List SubgraphDeploymentID) (q : String → Bool)
    (b : String) :
    (l.any fun d => q d.bytes32 && (d.bytes32 == b)) = (bytesMem l b && q b) := by
  induction l with
  | nil => simp [bytesMem]
  | cons d rest ih =>
    rw [List.any_cons, ih]
    by_cases hb : d.bytes32 = b
    · subst hb
      cases hq : q d.bytes32 <;>
        simp [bytesMem, hq]
    · have hbeq : (d.bytes32 == b) = false := by simp [hb]
      rw [show bytesMem (d :: rest) b = ((d.bytes32 == b) || bytesMem rest b)
        from rfl]
      rw [hbeq, Bool.and_false, Bool.false_or, Bool.false_or]

/-- Claim C1: for every input to `reconcileDeployments`, the computed `remove` set holds
exactly the active deployments that are neither in the (augmented) target list nor among
the deployments of the eligible allocations, compared by `bytes32`; consequently a
deployment backing an eligible allocation never appears in `remove`. -/
theorem remove_eq_active_minus_target_union_eligible
    (networkSubgraphDeployments : List (Option SubgraphDeploymentID))
    (offchainSubgraphs : List SubgraphDeploymentID)
    (activeDeployments targetDeployments : List SubgraphDeploymentID)
    (eligibleAllocations : List Allocation) :
    (∀ b : String,
      bytesMem (reconcileDeploymentsSets networkSubgraphDeployments offchainSubgraphs
        activeDeployments targetDeployments eligibleAllocations).2 b =
        (bytesMem activeDeployments b &&
          (!(bytesMem (augmentTargetDeployments networkSubgraphDeployments
              offchainSubgraphs targetDeployments) b) &&
            !(bytesMem (eligibleAllocations.map fun allocation =>
                allocation.subgraphDeployment.id) b)))) ∧
    (∀ a ∈ eligibleAllocations,
      ∀ r ∈ (reconcileDeploymentsSets networkSubgraphDeployments offchainSubgraphs
        activeDeployments targetDeployments eligibleAllocations).2,
        r.bytes32 ≠ a.subgraphDeployment.id.bytes32) := by
  constructor
  · intro b
    show bytesMem ((uniqueDeployments activeDeployments).filter fun deployment =>
      !(deploymentInList (uniqueDeployments (augmentTargetDeployments
          networkSubgraphDeployments offchainSubgraphs targetDeployments)) deployment) &&
        !(deploymentInList (uniqueDeployments (eligibleAllocations.map fun allocation =>
            allocation.subgraphDeployment.id)) deployment)) b = _
    rw [bytesMem_filter]
    refine (any_and_bytes (uniqueDeployments activeDeployments)
      (fun s => !(bytesMem (uniqueDeployments (augmentTargetDeployments
          networkSubgraphDeployments offchainSubgraphs targetDeployments)) s) &&
        !(bytesMem (uniqueDeployments (eligibleAllocations.map fun allocation =>
            allocation.subgraphDeployment.id)) s)) b).trans ?_
    rw [bytesMem_uniqueDeployments, bytesMem_uniqueDeployments,
      bytesMem_uniqueDeployments]
  · intro a ha r hr hEq
    have hr' := hr
    rw [show (reconcileDeploymentsSets networkSubgraphDeployments offchainSubgraphs
        activeDeployments targetDeployments eligibleAllocations).2 =
      ((uniqueDeployments activeDeployments).filter fun deployment =>
        !(deploymentInList (uniqueDeployments (augmentTargetDeployments
            networkSubgraphDeployments offchainSubgraphs targetDeployments))
            deployment) &&
          !(deploymentInList (uniqueDeployments (eligibleAllocations.map fun allocation =>
              allocation.subgraphDeployment.id)) deployment)) from rfl] at hr'
    have hmem := List.mem_filter.mp hr'
    have hp := hmem.2
    rw [Bool.and_eq_true] at hp
    have helig : bytesMem (uniqueDeployments (eligibleAllocations.map fun allocation =>
        allocation.subgraphDeployment.id)) r.bytes32 = false := by
      have := hp.2
      rw [deploymentInList_eq_bytesMem] at this
      simpa using this
    rw [bytesMem_uniqueDeployments] at helig
    have htrue : bytesMem (eligibleAllocations.map fun allocation =>
        allocation.subgraphDeployment.id) r.bytes32 = true := by
      apply (bytesMem_iff _ _).mpr
      exact ⟨a.subgraphDeployment.id, List.mem_map_of_mem _ ha, hEq.symm⟩
    rw [htrue] at helig
    exact Bool.noConfusion helig

/-- Claim C8: the `deploy` and `remove` sets computed by `reconcileDeployments` are
disjoint by `bytes32`: every `deploy` entry is absent (by `bytes32`) from the active list,
every `remove` entry is present in the active list, and no `deploy` entry shares a
`bytes32` with a `remove` entry. -/
theorem deploy_remove_disjoint
    (networkSubgraphDeployments : List (Option SubgraphDeploymentID))
    (offchainSubgraphs : List SubgraphDeploymentID)
    (activeDeployments targetDeployments : List SubgraphDeploymentID)
    (eligibleAllocations : List Allocation) :
    (∀ d ∈ (reconcileDeploymentsSets networkSubgraphDeployments offchainSubgraphs
        activeDeployments targetDeployments eligibleAllocations).1,
      deploymentInList activeDeployments d = false) ∧
    (∀ r ∈ (reconcileDeploymentsSets networkSubgraphDeployments offchainSubgraphs
        activeDeployments targetDeployments eligibleAllocations).2,
      deploymentInList activeDeployments r = true) ∧
    (∀ d ∈ (reconcileDeploymentsSets networkSubgraphDeployments offchainSubgraphs
        activeDeployments targetDeployments eligibleAllocations).1,
      ∀ r ∈ (reconcileDeploymentsSets networkSubgraphDeployments offchainSubgraphs
        activeDeployments targetDeployments eligibleAllocations).2,
        d.bytes32 ≠ r.bytes32) := by
  have hdeploy : ∀ d ∈ (reconcileDeploymentsSets networkSubgraphDeployments
      offchainSubgraphs activeDeployments targetDeployments eligibleAllocations).1,
      deploymentInList activeDeployments d = false := by
    intro d hd
    have hd' := hd
    rw [show (reconcileDeploymentsSets networkSubgraphDeployments offchainSubgraphs
        activeDeployments targetDeployments eligibleAllocations).1 =
      ((uniqueDeployments (augmentTargetDeployments networkSubgraphDeployments
          offchainSubgraphs targetDeployments)).filter fun deployment =>
        !(deploymentInList (uniqueDeployments activeDeployments) deployment))
      from rfl] at hd'
    have hmem := List.mem_filter.mp hd'
    have hp := hmem.2
    rw [deploymentInList_eq_bytesMem, bytesMem_uniqueDeployments] at hp
    rw [deploymentInList_eq_bytesMem]
    simpa using hp
  have hremove : ∀ r ∈ (reconcileDeploymentsSets networkSubgraphDeployments
      offchainSubgraphs activeDeployments targetDeployments eligibleAllocations).2,
      deploymentInList activeDeployments r = true := by
    intro r hr
    have hr' := hr
    rw [show (reconcileDeploymentsSets networkSubgraphDeployments offchainSubgraphs
        activeDeployments targetDeployments eligibleAllocations).2 =
      ((uniqueDeployments activeDeployments).filter fun deployment =>
        !(deploymentInList (uniqueDeployments (augmentTargetDeployments
            networkSubgraphDeployments offchainSubgraphs targetDeployments))
            deployment) &&
          !(deploymentInList (uniqueDeployments (eligibleAllocations.map fun allocation =>
              allocation.subgraphDeployment.id)) deployment)) from rfl] at hr'
    have hmem := List.mem_filter.mp hr'
    have hact : r ∈ activeDeployments :=
      mem_of_mem_uniqueDeployments _ _ hmem.1
    rw [deploymentInList_eq_bytesMem]
    exact bytesMem_of_mem _ _ hact
  refine ⟨hdeploy, hremove, ?_⟩
  intro d hd r hr hEq
  have h1 := hdeploy d hd
  have h2 := hremove r hr
  rw [deploymentInList_eq_bytesMem] at h1 h2
  rw [hEq, h2] at h1
  exact Bool.noConfusion h1

/-- JavaScript `Set.add` on `SubgraphDeploymentID` objects: a JS `Set` compares objects by
reference (modelled by `oid`); the element is appended only when no element with the same
`oid` is already present. Insertion order is kept, as for a JS `Set`. -/
def jsSetAdd (s : List SubgraphDeploymentID) (d : SubgraphDeploymentID) :
    List SubgraphDeploymentID :=
  if s.any fun x => x.oid == d.oid then s else s ++ [d]

/-- JavaScript `new Set(list)` over `SubgraphDeploymentID` objects. -/
def jsSetOfList (l : List SubgraphDeploymentID) : List SubgraphDeploymentID :=
  l.foldl jsSetAdd []

/-- The `forEach` loop of part_001:467-474: for each rule with
`decisionBasis == OFFCHAIN`, `new SubgraphDeploymentID(rule.identifier)` constructs a fresh
object — modelled with consecutive fresh `oid`s starting at `freshBase` — and adds it to
the set. -/
def addOffchainRuleObjects (freshBase : Nat) (s : List SubgraphDeploymentID) :
    List IndexingRule → List SubgraphDeploymentID
  | [] => s
  | r :: rest =>
    addOffchainRuleObjects (freshBase + 1)
      (jsSetAdd s { bytes32 := r.identifier, oid := freshBase }) rest

/-- The value computed by the `targetDeployments` eventual (part_001:452-490): a JS `Set`
is built from the deployments of all `toAllocate` decisions across networks, then a fresh
`SubgraphDeploymentID` object is added for every rule with `decisionBasis == OFFCHAIN`
across networks, then every entry of the static offchain list from startup is added; the
set is returned as a list in insertion order. The JS `Set` compares object references
(`oid` in this model), not `bytes32`. -/
def targetDeploymentsValue
    (networkDeploymentAllocationDecisions : List (String × List AllocationDecision))
    (indexingRules : List (String × List IndexingRule))
    (offchainSubgraphs : List SubgraphDeploymentID)
    (freshBase : Nat) : List SubgraphDeploymentID :=
  let s0 := jsSetOfList
    (((networkDeploymentAllocationDecisions.map fun p => p.2).flatten.filter
      fun decision => decision.toAllocate == true).map fun decision =>
        decision.deployment)
  let offchainRules := (indexingRules.map fun p => p.2).flatten.filter
    fun rule => rule.decisionBasis == IndexingDecisionBasis.OFFCHAIN
  let s1 := addOffchainRuleObjects freshBase s0 offchainRules
  offchainSubgraphs.foldl jsSetAdd s1

theorem bytesMem_append (l1 l2 : List SubgraphDeploymentID) (b : String) :
    bytesMem (l1 ++ l2) b = (bytesMem l1 b || bytesMem l2 b) := by
  simp [bytesMem, List.any_append]

theorem bytesMem_jsSetAdd (acc : List SubgraphDeploymentID)
    (d : SubgraphDeploymentID) (b : String)
    (h : ∀ x ∈ acc, x.oid = d.oid → x.bytes32 = d.bytes32) :
    bytesMem (jsSetAdd acc d) b = (bytesMem acc b || (d.bytes32 == b)) := by
  rw [jsSetAdd]
  by_cases hoid : acc.any fun x => x.oid == d.oid
  · rw [if_pos hoid]
    rcases List.any_eq_true.mp hoid with ⟨x, hx, hxd⟩
    have hxb : x.bytes32 = d.bytes32 := h x hx (by simpa using hxd)
    by_cases hb : d.bytes32 = b
    · have : bytesMem acc b = true :=
        (bytesMem_iff acc b).mpr ⟨x, hx, hxb.trans hb⟩
      rw [this]
      simp [hb]
    · have hbeq : (d.bytes32 == b) = false := by simp [hb]
      rw [hbeq, Bool.or_false]
  · rw [if_neg hoid, bytesMem_append]
    rw [show bytesMem [d] b = ((d.bytes32 == b) || false) from rfl, Bool.or_false]

theorem mem_jsSetAdd (acc : List SubgraphDeploymentID) (d x : SubgraphDeploymentID)
    (hx : x ∈ jsSetAdd acc d) : x ∈ acc ∨ x = d := by
  rw [jsSetAdd] at hx
  by_cases hoid : acc.any fun y => y.oid == d.oid
  · rw [if_pos hoid] at hx
    exact Or.inl hx
  · rw [if_neg hoid] at hx
    rcases List.mem_append.mp hx with h | h
    · exact Or.inl h
    · exact Or.inr (by simpa using h)

theorem foldl_jsSetAdd_bytesMem (b : String) :
    ∀ (l acc : List SubgraphDeploymentID),
    (∀ x ∈ acc, ∀ d ∈ l, x.oid = d.oid → x.bytes32 = d.bytes32) →
    l.Pairwise (fun d e => d.oid = e.oid → d.bytes32 = e.bytes32) →
    bytesMem (l.foldl jsSetAdd acc) b = (bytesMem acc b || bytesMem l b)
  | [], acc, hacc, hpw => by simp [bytesMem]
  | d :: rest, acc, hacc, hpw => by
    rw [List.foldl_cons]
    have hpw' := List.pairwise_cons.mp hpw
    have hstep : ∀ x ∈ jsSetAdd acc d, ∀ e ∈ rest, x.oid = e.oid →
        x.bytes32 = e.bytes32 := by
      intro x hx e he
      rcases mem_jsSetAdd acc d x hx with h | h
      · exact hacc x h e (List.mem_cons_of_mem _ he)
      · exact h ▸ hpw'.1 e he
    rw [foldl_jsSetAdd_bytesMem b rest (jsSetAdd acc d) hstep hpw'.2]
    rw [bytesMem_jsSetAdd acc d b
      (fun x hx => hacc x hx d (List.mem_cons_self _ _))]
    rw [show bytesMem (d :: rest) b = ((d.bytes32 == b) || bytesMem rest b)
      from rfl, Bool.or_assoc]

theorem mem_foldl_jsSetAdd (l : List SubgraphDeploymentID) :
    ∀ (acc : List SubgraphDeploymentID) (x : SubgraphDeploymentID),
    x ∈ l.foldl jsSetAdd acc → x ∈ acc ∨ x ∈ l := by
  induction l with
  | nil => intro acc x hx; exact Or.inl (by simpa using hx)
  | cons d rest ih =>
    intro acc x hx
    rw [List.foldl_cons] at hx
    rcases ih (jsSetAdd acc d) x hx with h | h
    · rcases mem_jsSetAdd acc d x h with h' | h'
      · exact Or.inl h'
      · exact Or.inr (h' ▸ List.mem_cons_self _ _)
    · exact Or.inr (List.mem_cons_of_mem _ h)

theorem bytesMem_addOffchainRuleObjects (b : String) :
    ∀ (rs : List IndexingRule) (freshBase : Nat) (s : List SubgraphDeploymentID),
    (∀ x ∈ s, x.oid < freshBase) →
    bytesMem (addOffchainRuleObjects freshBase s rs) b =
      (bytesMem s b || strMem (rs.map fun r => r.identifier) b)
  | [], freshBase, s, hs => by simp [addOffchainRuleObjects, strMem]
  | r :: rest, freshBase, s, hs => by
    rw [addOffchainRuleObjects]
    have hnot : (s.any fun x =>
        x.oid == (SubgraphDeploymentID.mk r.identifier freshBase).oid) = false := by
      rw [List.any_eq_false]
      intro x hx
      have := hs x hx
      simp only [beq_iff_eq]
      omega
    have hadd : jsSetAdd s { bytes32 := r.identifier, oid := freshBase } =
        s ++ [{ bytes32 := r.identifier, oid := freshBase }] := by
      rw [jsSetAdd, if_neg (by simp [hnot])]
    rw [hadd]
    have hs' : ∀ x ∈ s ++ [SubgraphDeploymentID.mk r.identifier freshBase],
        x.oid < freshBase + 1 := by
      intro x hx
      rcases List.mem_append.mp hx with h | h
      · have := hs x h; omega
      · have : x = SubgraphDeploymentID.mk r.identifier freshBase := by simpa using h
        rw [this]
        exact Nat.lt_succ_self freshBase
    rw [bytesMem_addOffchainRuleObjects b rest (freshBase + 1) _ hs']
    rw [bytesMem_append]
    rw [show bytesMem [SubgraphDeploymentID.mk r.identifier freshBase] b =
      ((r.identifier == b) || false) from rfl, Bool.or_false]
    rw [show strMem ((r :: rest).map fun r => r.identifier) b =
      ((r.identifier == b) || strMem (rest.map fun r => r.identifier) b) from rfl]
    rw [Bool.or_assoc]

theorem mem_addOffchainRuleObjects :
    ∀ (rs : List IndexingRule) (freshBase : Nat) (s : List SubgraphDeploymentID)
      (x : SubgraphDeploymentID),
    x ∈ addOffchainRuleObjects freshBase s rs → x ∈ s ∨ freshBase ≤ x.oid
  | [], freshBase, s, x, hx => Or.inl (by simpa [addOffchainRuleObjects] using hx)
  | r :: rest, freshBase, s, x, hx => by
    rw [addOffchainRuleObjects] at hx
    rcases mem_addOffchainRuleObjects rest (freshBase + 1) _ x hx with h | h
    · rcases mem_jsSetAdd _ _ x h with h' | h'
      · exact Or.inl h'
      · refine Or.inr ?_
        rw [h']
    · exact Or.inr (by omega)

/-- Counterexample to claim C3 as stated: with one network whose single decision has
`toAllocate = true` for deployment `0xd` and one OFFCHAIN rule whose identifier denotes
the same deployment `0xd`, the emitted list contains two entries with the same `bytes32`,
because the JS `Set` deduplicates by object reference and the rule's deployment ID is a
freshly constructed object. -/
theorem targetDeployments_dedup_counterexample :
    ((targetDeploymentsValue
      [("eip155:1", [{ deployment := { bytes32 := "0xd", oid := 0 },
                       toAllocate := true,
                       ruleMatch := { rule := none, reason := "rules" } }])]
      [("eip155:1", [{ identifier := "0xd",
                       identifierType := SubgraphIdentifierType.DEPLOYMENT,
                       decisionBasis := IndexingDecisionBasis.OFFCHAIN,
                       allocationAmount := 0,
                       allocationLifetime := none,
                       protocolNetwork := "eip155:1" }])]
      [] 1).map fun d => d.bytes32) = ["0xd", "0xd"] := by
  rfl

/-- Claim C3 (amended): the emitted value's `bytes32` values are exactly the union of
(a) the deployments of all `toAllocate` decisions across networks, (b) the identifiers of
all OFFCHAIN rules across networks, and (c) the static offchain list — provided the fresh
object identities used for the OFFCHAIN rules do not collide with existing objects and
object identity determines `bytes32`; deduplication, however, is by object reference, so
two emitted entries may share the same `bytes32`. -/
theorem targetDeployments_bytes32_union
    (networkDeploymentAllocationDecisions : List (String × List AllocationDecision))
    (indexingRules : List (String × List IndexingRule))
    (offchainSubgraphs : List SubgraphDeploymentID)
    (freshBase : Nat) (b : String)
    (hfresh : ∀ d ∈ (((networkDeploymentAllocationDecisions.map fun p => p.2).flatten.filter
        fun decision => decision.toAllocate == true).map fun decision =>
          decision.deployment) ++ offchainSubgraphs, d.oid < freshBase)
    (hcoh : ∀ d ∈ (((networkDeploymentAllocationDecisions.map fun p => p.2).flatten.filter
        fun decision => decision.toAllocate == true).map fun decision =>
          decision.deployment) ++ offchainSubgraphs,
      ∀ e ∈ (((networkDeploymentAllocationDecisions.map fun p => p.2).flatten.filter
        fun decision => decision.toAllocate == true).map fun decision =>
          decision.deployment) ++ offchainSubgraphs,
      d.oid = e.oid → d.bytes32 = e.bytes32) :
    bytesMem (targetDeploymentsValue networkDeploymentAllocationDecisions
        indexingRules offchainSubgraphs freshBase) b =
      (bytesMem (((networkDeploymentAllocationDecisions.map fun p => p.2).flatten.filter
          fun decision => decision.toAllocate == true).map fun decision =>
            decision.deployment) b ||
        strMem (((indexingRules.map fun p => p.2).flatten.filter
          fun rule => rule.decisionBasis == IndexingDecisionBasis.OFFCHAIN).map
            fun rule => rule.identifier) b ||
        bytesMem offchainSubgraphs b) := by
  set decDeps := (((networkDeploymentAllocationDecisions.map fun p => p.2).flatten.filter
    fun decision => decision.toAllocate == true).map fun decision =>
      decision.deployment) with hdecDeps
  set offRules := ((indexingRules.map fun p => p.2).flatten.filter
    fun rule => rule.decisionBasis == IndexingDecisionBasis.OFFCHAIN) with hoffRules
  have hdecIn : ∀ d ∈ decDeps, d ∈ decDeps ++ offchainSubgraphs := by
    intro d hd; exact List.mem_append.mpr (Or.inl hd)
  have hoffIn : ∀ d ∈ offchainSubgraphs, d ∈ decDeps ++ offchainSubgraphs := by
    intro d hd; exact List.mem_append.mpr (Or.inr hd)
  have hs0mem : ∀ x ∈ jsSetOfList decDeps, x ∈ decDeps := by
    intro x hx
    rcases mem_foldl_jsSetAdd decDeps [] x hx with h | h
    · simp at h
    · exact h
  have hs0oid : ∀ x ∈ jsSetOfList decDeps, x.oid < freshBase := by
    intro x hx
    exact hfresh x (hdecIn x (hs0mem x hx))
  have hs0bytes : bytesMem (jsSetOfList decDeps) b = bytesMem decDeps b := by
    rw [jsSetOfList, foldl_jsSetAdd_bytesMem b decDeps []
      (by intro x hx; simp at hx)
      (List.pairwise_of_forall_mem_list fun d hd e he =>
        hcoh d (hdecIn d hd) e (hdecIn e he))]
    simp [bytesMem]
  have hs1bytes : bytesMem (addOffchainRuleObjects freshBase
      (jsSetOfList decDeps) offRules) b =
      (bytesMem decDeps b || strMem (offRules.map fun r => r.identifier) b) := by
    rw [bytesMem_addOffchainRuleObjects b offRules freshBase _ hs0oid, hs0bytes]
  have hs1coh : ∀ x ∈ addOffchainRuleObjects freshBase (jsSetOfList decDeps) offRules,
      ∀ e ∈ offchainSubgraphs, x.oid = e.oid → x.bytes32 = e.bytes32 := by
    intro x hx e he hoid
    rcases mem_addOffchainRuleObjects offRules freshBase _ x hx with h | h
    · exact hcoh x (hdecIn x (hs0mem x h)) e (hoffIn e he) hoid
    · exfalso
      have := hfresh e (hoffIn e he)
      omega
  rw [show targetDeploymentsValue networkDeploymentAllocationDecisions indexingRules
      offchainSubgraphs freshBase =
    offchainSubgraphs.foldl jsSetAdd (addOffchainRuleObjects freshBase
      (jsSetOfList decDeps) offRules) from rfl]
  rw [foldl_jsSetAdd_bytesMem b offchainSubgraphs _ hs1coh
    (List.pairwise_of_forall_mem_list fun d hd e he =>
      hcoh d (hoffIn d hd) e (hoffIn e he))]
  rw [hs1bytes, Bool.or_assoc]

/-- The latest version of a subgraph: `versions.find(version => version.version ==
versionCount - 1)` (part_001:159-162). The version index is compared as a JavaScript
number, so `versionCount == 0` looks for version `-1` and finds nothing. -/
def latestVersionOf (sg : Subgraph) : Option SubgraphVersion :=
  sg.versions.find? fun version => (version.version : Int) == (sg.versionCount : Int) - 1

/-- The previous version of a subgraph: `versions.find(version => version.version ==
latestVersion - 1)` (part_001:174-176). -/
def previousVersionOf (sg : Subgraph) : Option SubgraphVersion :=
  sg.versions.find? fun version =>
    (version.version : Int) == (sg.versionCount : Int) - 1 - 1

/-- In-place rewrite of a rule to target a deployment (part_001:165-166 and 182-185):
only `identifier` and `identifierType` change. -/
def rewriteRule (r : IndexingRule) (d : SubgraphDeploymentID) : IndexingRule :=
  { r with identifier := d.bytes32,
           identifierType := SubgraphIdentifierType.DEPLOYMENT }

/-- The value a rule holds after its iteration of the `rules.map` loop of
`convertSubgraphBasedRulesToDeploymentBased` (part_001:151-167). `done` is the
already-processed prefix of the `rules` array (with its in-place rewrites), `rest` the
unprocessed suffix; the source consults the whole mutated array through
`deploymentRuleInList(rules, ...)`, which at this point is `done ++ r :: rest`. The rule
is rewritten to the latest version's deployment only when it is SUBGRAPH-typed, its
subgraph and latest version are found, and no rule of the current array already targets
that deployment. -/
def processedRule (subgraphs : List Subgraph) (done : List IndexingRule)
    (r : IndexingRule) (rest : List IndexingRule) : IndexingRule :=
  if r.identifierType ≠ SubgraphIdentifierType.SUBGRAPH then r
  else
    match subgraphs.find? fun subgraph => subgraph.id == r.identifier with
    | none => r
    | some ruleSubgraph =>
      match latestVersionOf ruleSubgraph with
      | none => r
      | some latestDeploymentVersion =>
        if ¬ deploymentRuleInList (done ++ r :: rest)
            latestDeploymentVersion.deployment then
          rewriteRule r latestDeploymentVersion.deployment
        else r

/-- The previous-version copies a rule pushes onto `toAdd` during its iteration
(part_001:169-188). The copy `{...rule}` is taken after the potential in-place rewrite,
so it copies `processedRule`, and the duplicate check reads the array after the rewrite:
`done ++ processedRule ... :: rest`. `now` models `Math.floor(Date.now() / 1000)`; times
are `Int` like JavaScript numbers, so `createdAt > now - previousVersionBuffer` does not
truncate at zero. -/
def previousVersionCopies (subgraphs : List Subgraph)
    (previousVersionBuffer now : Int) (done : List IndexingRule) (r : IndexingRule)
    (rest : List IndexingRule) : List IndexingRule :=
  if r.identifierType ≠ SubgraphIdentifierType.SUBGRAPH then []
  else
    match subgraphs.find? fun subgraph => subgraph.id == r.identifier with
    | none => []
    | some ruleSubgraph =>
      match latestVersionOf ruleSubgraph with
      | none => []
      | some latestDeploymentVersion =>
        if now - previousVersionBuffer < (latestDeploymentVersion.createdAt : Int) then
          match previousVersionOf ruleSubgraph with
          | some previousDeploymentVersion =>
            if ¬ deploymentRuleInList
                (done ++ processedRule subgraphs done r rest :: rest)
                previousDeploymentVersion.deployment then
              [rewriteRule (processedRule subgraphs done r rest)
                previousDeploymentVersion.deployment]
            else []
          | none => []
        else []

/-- The iteration of `rules.map(...)` in `convertSubgraphBasedRulesToDeploymentBased`,
threading the mutated array prefix `done` and the accumulated `toAdd` list. -/
def convertGo (subgraphs : List Subgraph) (previousVersionBuffer now : Int)
    (done toAdd : List IndexingRule) :
    List IndexingRule → List IndexingRule × List IndexingRule
  | [] => (done, toAdd)
  | r :: rest =>
    convertGo subgraphs previousVersionBuffer now
      (done ++ [processedRule subgraphs done r rest])
      (toAdd ++ previousVersionCopies subgraphs previousVersionBuffer now done r rest)
      rest

/-- Source `convertSubgraphBasedRulesToDeploymentBased` (part_001:145-195): process each
rule in order, then append the accumulated previous-version copies
(`rules.push(...toAdd)`). -/
def convertSubgraphBasedRulesToDeploymentBased (rules : List IndexingRule)
    (subgraphs : List Subgraph) (previousVersionBuffer now : Int) :
    List IndexingRule :=
  (convertGo subgraphs previousVersionBuffer now [] [] rules).1 ++
    (convertGo subgraphs previousVersionBuffer now [] [] rules).2

theorem processedRule_cases (subgraphs : List Subgraph) (done : List IndexingRule)
    (r : IndexingRule) (rest : List IndexingRule) :
    processedRule subgraphs done r rest = r ∨
    (r.identifierType = SubgraphIdentifierType.SUBGRAPH ∧
      ∃ s, processedRule subgraphs done r rest =
        { r with identifier := s,
                 identifierType := SubgraphIdentifierType.DEPLOYMENT }) := by
  rw [processedRule]
  by_cases ht : r.identifierType ≠ SubgraphIdentifierType.SUBGRAPH
  · rw [if_pos ht]
    exact Or.inl rfl
  · rw [if_neg ht]
    push_neg at ht
    split
    · exact Or.inl rfl
    · split
      · exact Or.inl rfl
      · split
        · exact Or.inr ⟨ht, _, rfl⟩
        · exact Or.inl rfl

theorem processedRule_of_not_subgraph (subgraphs : List Subgraph)
    (done : List IndexingRule) (r : IndexingRule) (rest : List IndexingRule)
    (h : r.identifierType ≠ SubgraphIdentifierType.SUBGRAPH) :
    processedRule subgraphs done r rest = r := by
  rw [processedRule, if_pos h]

theorem convertGo_fst_length (subgraphs : List Subgraph)
    (previousVersionBuffer now : Int) :
    ∀ (l done toAdd : List IndexingRule),
    (convertGo subgraphs previousVersionBuffer now done toAdd l).1.length =
      done.length + l.length
  | [], done, toAdd => by simp [convertGo]
  | r :: rest, done, toAdd => by
    rw [convertGo, convertGo_fst_length subgraphs previousVersionBuffer now rest]
    simp
    omega

theorem convertGo_fst_keeps_done (subgraphs : List Subgraph)
    (previousVersionBuffer now : Int) :
    ∀ (l done toAdd : List IndexingRule) (i : Nat), i < done.length →
    (convertGo subgraphs previousVersionBuffer now done toAdd l).1[i]? = done[i]?
  | [], done, toAdd, i, hi => by simp [convertGo]
  | r :: rest, done, toAdd, i, hi => by
    rw [convertGo]
    rw [convertGo_fst_keeps_done subgraphs previousVersionBuffer now rest _ _ i
      (by simp; omega)]
    exact List.getElem?_append_left hi

theorem convertGo_fst_get (subgraphs : List Subgraph)
    (previousVersionBuffer now : Int) :
    ∀ (l done toAdd : List IndexingRule) (i : Nat) (r : IndexingRule),
    l[i]? = some r →
    ∃ o, (convertGo subgraphs previousVersionBuffer now done toAdd l).1[done.length +
        i]? = some o ∧
      (o = r ∨ (r.identifierType = SubgraphIdentifierType.SUBGRAPH ∧
        ∃ s, o = { r with identifier := s,
                          identifierType := SubgraphIdentifierType.DEPLOYMENT }))
  | [], done, toAdd, i, r, hr => by simp at hr
  | x :: rest, done, toAdd, 0, r, hr => by
    have hx : x = r := by simpa using hr
    subst hx
    rw [convertGo]
    refine ⟨processedRule subgraphs done x rest, ?_, ?_⟩
    · rw [convertGo_fst_keeps_done subgraphs previousVersionBuffer now rest _ _
        (done.length + 0) (by simp)]
      simp
    · exact processedRule_cases subgraphs done x rest
  | x :: rest, done, toAdd, i + 1, r, hr => by
    have hr1 : rest[i]? = some r := by simpa using hr
    rw [convertGo]
    rcases convertGo_fst_get subgraphs previousVersionBuffer now rest
      (done ++ [processedRule subgraphs done x rest])
      (toAdd ++ previousVersionCopies subgraphs previousVersionBuffer now done x rest)
      i r hr1 with ⟨o, ho, hcase⟩
    refine ⟨o, ?_, hcase⟩
    rw [show done.length + (i + 1) =
      (done ++ [processedRule subgraphs done x rest]).length + i by simp; omega]
    exact ho

/-- Claim C10: `convertSubgraphBasedRulesToDeploymentBased` never removes or reorders
rules: the output is at least as long as the input, the entry at each input position
agrees with the input rule on every field other than `identifier` and `identifierType`
(which only SUBGRAPH-typed rules can have rewritten), and every rule whose
`identifierType` is not SUBGRAPH is returned entirely unchanged at its original
position. -/
theorem convert_preserves_input_rules (rules : List IndexingRule)
    (subgraphs : List Subgraph) (previousVersionBuffer now : Int) :
    rules.length ≤ (convertSubgraphBasedRulesToDeploymentBased rules subgraphs
      previousVersionBuffer now).length ∧
    ∀ (i : Nat) (r : IndexingRule), rules[i]? = some r →
      ∃ o, (convertSubgraphBasedRulesToDeploymentBased rules subgraphs
          previousVersionBuffer now)[i]? = some o ∧
        o.decisionBasis = r.decisionBasis ∧
        o.allocationAmount = r.allocationAmount ∧
        o.allocationLifetime = r.allocationLifetime ∧
        o.protocolNetwork = r.protocolNetwork ∧
        (r.identifierType ≠ SubgraphIdentifierType.SUBGRAPH → o = r) := by
  have hlen : (convertGo subgraphs previousVersionBuffer now [] [] rules).1.length =
      rules.length := by
    rw [convertGo_fst_length]
    simp
  constructor
  · rw [convertSubgraphBasedRulesToDeploymentBased, List.length_append, hlen]
    omega
  · intro i r hr
    rcases convertGo_fst_get subgraphs previousVersionBuffer now rules [] [] i r hr
      with ⟨o, ho, hcase⟩
    have hi : i < rules.length := by
      rcases List.getElem?_eq_some.mp hr with ⟨h, _⟩
      exact h
    refine ⟨o, ?_, ?_⟩
    · rw [convertSubgraphBasedRulesToDeploymentBased,
        List.getElem?_append_left (by rw [hlen]; exact hi)]
      simpa using ho
    · rcases hcase with h | ⟨hsub, s, h⟩
      · subst h
        exact ⟨rfl, rfl, rfl, rfl, fun _ => rfl⟩
      · subst h
        exact ⟨rfl, rfl, rfl, rfl, fun hns => absurd hsub hns⟩

theorem deploymentRuleInList_iff (list : List IndexingRule)
    (d : SubgraphDeploymentID) :
    deploymentRuleInList list d = true ↔
      ∃ x ∈ list, x.identifierType = SubgraphIdentifierType.DEPLOYMENT ∧
        x.identifier = d.bytes32 := by
  simp [deploymentRuleInList, List.any_eq_true]

theorem processedRule_eq_rewrite (subgraphs : List Subgraph)
    (done : List IndexingRule) (r : IndexingRule) (rest : List IndexingRule)
    (sg : Subgraph) (lv : SubgraphVersion)
    (ht : r.identifierType = SubgraphIdentifierType.SUBGRAPH)
    (hfind : (subgraphs.find? fun subgraph => subgraph.id == r.identifier) = some sg)
    (hlv : latestVersionOf sg = some lv)
    (hcheck : deploymentRuleInList (done ++ r :: rest) lv.deployment = false) :
    processedRule subgraphs done r rest = rewriteRule r lv.deployment := by
  simp only [processedRule, ht, hfind, hlv, hcheck]
  simp

theorem processedRule_eq_self_of_targeted (subgraphs : List Subgraph)
    (done : List IndexingRule) (r : IndexingRule) (rest : List IndexingRule)
    (sg : Subgraph) (lv : SubgraphVersion)
    (ht : r.identifierType = SubgraphIdentifierType.SUBGRAPH)
    (hfind : (subgraphs.find? fun subgraph => subgraph.id == r.identifier) = some sg)
    (hlv : latestVersionOf sg = some lv)
    (hcheck : deploymentRuleInList (done ++ r :: rest) lv.deployment = true) :
    processedRule subgraphs done r rest = r := by
  simp only [processedRule, ht, hfind, hlv, hcheck]
  simp

theorem previousVersionCopies_mem_of (subgraphs : List Subgraph)
    (previousVersionBuffer now : Int) (done : List IndexingRule) (r : IndexingRule)
    (rest : List IndexingRule) (sg : Subgraph) (lv pv : SubgraphVersion)
    (ht : r.identifierType = SubgraphIdentifierType.SUBGRAPH)
    (hfind : (subgraphs.find? fun subgraph => subgraph.id == r.identifier) = some sg)
    (hlv : latestVersionOf sg = some lv)
    (hpv : previousVersionOf sg = some pv)
    (hbuf : now - previousVersionBuffer < (lv.createdAt : Int))
    (hcheck : deploymentRuleInList (done ++ processedRule subgraphs done r rest :: rest)
      pv.deployment = false) :
    previousVersionCopies subgraphs previousVersionBuffer now done r rest =
      [rewriteRule (processedRule subgraphs done r rest) pv.deployment] := by
  simp only [previousVersionCopies, ht, hfind, hlv, hpv, hcheck]
  simp [hbuf]

theorem mem_previousVersionCopies (subgraphs : List Subgraph)
    (previousVersionBuffer now : Int) (done : List IndexingRule) (r : IndexingRule)
    (rest : List IndexingRule) (x : IndexingRule)
    (hx : x ∈ previousVersionCopies subgraphs previousVersionBuffer now done r rest) :
    ∃ sg lv pv,
      (subgraphs.find? fun subgraph => subgraph.id == r.identifier) = some sg ∧
      latestVersionOf sg = some lv ∧
      previousVersionOf sg = some pv ∧
      now - previousVersionBuffer < (lv.createdAt : Int) ∧
      x = rewriteRule (processedRule subgraphs done r rest) pv.deployment := by
  rw [previousVersionCopies] at hx
  split at hx
  · simp at hx
  · split at hx
    · simp at hx
    · next sg hfind =>
      split at hx
      · simp at hx
      · next lv hlv =>
        split at hx
        · next hbuf =>
          split at hx
          · next pv hpv =>
            split at hx
            · next hcheck =>
              refine ⟨sg, lv, pv, hfind, hlv, hpv, hbuf, ?_⟩
              simpa using hx
            · simp at hx
          · simp at hx
        · simp at hx

theorem convertGo_targets_mono (subgraphs : List Subgraph)
    (previousVersionBuffer now : Int) :
    ∀ (l done toAdd : List IndexingRule) (d : SubgraphDeploymentID),
    deploymentRuleInList (done ++ l) d = true →
    deploymentRuleInList
      (convertGo subgraphs previousVersionBuffer now done toAdd l).1 d = true
  | [], done, toAdd, d, h => by
    rw [convertGo]
    simpa using h
  | r :: rest, done, toAdd, d, h => by
    rw [convertGo]
    apply convertGo_targets_mono subgraphs previousVersionBuffer now rest _ _ d
    rw [deploymentRuleInList_iff] at h ⊢
    rcases h with ⟨x, hx, hdep, hid⟩
    rcases List.mem_append.mp hx with hxd | hxr
    · exact ⟨x, by simp [hxd], hdep, hid⟩
    · rcases List.mem_cons.mp hxr with hxeq | hxrest
      · subst hxeq
        refine ⟨x, ?_, hdep, hid⟩
        have hproc : processedRule subgraphs done x rest = x :=
          processedRule_of_not_subgraph subgraphs done x rest (by rw [hdep]; simp)
        rw [hproc]
        simp
      · exact ⟨x, by simp [hxrest], hdep, hid⟩

theorem convertGo_snd_mono (subgraphs : List Subgraph)
    (previousVersionBuffer now : Int) :
    ∀ (l done toAdd : List IndexingRule) (x : IndexingRule), x ∈ toAdd →
    x ∈ (convertGo subgraphs previousVersionBuffer now done toAdd l).2
  | [], done, toAdd, x, hx => by
    rw [convertGo]
    exact hx
  | r :: rest, done, toAdd, x, hx => by
    rw [convertGo]
    exact convertGo_snd_mono subgraphs previousVersionBuffer now rest _ _ x
      (by simp [hx])

theorem convertGo_rewrite_or_targeted (subgraphs : List Subgraph)
    (previousVersionBuffer now : Int) :
    ∀ (l done toAdd : List IndexingRule) (i : Nat) (r : IndexingRule)
      (sg : Subgraph) (lv : SubgraphVersion),
    l[i]? = some r →
    r.identifierType = SubgraphIdentifierType.SUBGRAPH →
    (subgraphs.find? fun subgraph => subgraph.id == r.identifier) = some sg →
    latestVersionOf sg = some lv →
    ∃ o, (convertGo subgraphs previousVersionBuffer now done toAdd l).1[done.length +
        i]? = some o ∧
      (o = rewriteRule r lv.deployment ∨
        (o = r ∧ deploymentRuleInList
          (convertGo subgraphs previousVersionBuffer now done toAdd l).1 lv.deployment =
            true))
  | [], done, toAdd, i, r, sg, lv, hr, ht, hfind, hlv => by simp at hr
  | x :: rest, done, toAdd, 0, r, sg, lv, hr, ht, hfind, hlv => by
    have hx : x = r := by simpa using hr
    subst hx
    rw [convertGo]
    refine ⟨processedRule subgraphs done x rest, ?_, ?_⟩
    · rw [convertGo_fst_keeps_done subgraphs previousVersionBuffer now rest _ _
        (done.length + 0) (by simp)]
      simp
    · cases hcheck : deploymentRuleInList (done ++ x :: rest) lv.deployment with
      | false =>
        exact Or.inl (processedRule_eq_rewrite subgraphs done x rest sg lv ht hfind
          hlv hcheck)
      | true =>
        have hproc : processedRule subgraphs done x rest = x :=
          processedRule_eq_self_of_targeted subgraphs done x rest sg lv ht hfind
            hlv hcheck
        refine Or.inr ⟨hproc, ?_⟩
        apply convertGo_targets_mono subgraphs previousVersionBuffer now rest _ _
        rw [hproc]
        rw [show (done ++ [x]) ++ rest = done ++ x :: rest by simp]
        exact hcheck
  | x :: rest, done, toAdd, i + 1, r, sg, lv, hr, ht, hfind, hlv => by
    have hr1 : rest[i]? = some r := by simpa using hr
    rw [convertGo]
    rcases convertGo_rewrite_or_targeted subgraphs previousVersionBuffer now rest
      (done ++ [processedRule subgraphs done x rest])
      (toAdd ++ previousVersionCopies subgraphs previousVersionBuffer now done x rest)
      i r sg lv hr1 ht hfind hlv with ⟨o, ho, hcase⟩
    refine ⟨o, ?_, hcase⟩
    rw [show done.length + (i + 1) =
      (done ++ [processedRule subgraphs done x rest]).length + i by simp; omega]
    exact ho

theorem convertGo_copy_within_buffer (subgraphs : List Subgraph)
    (previousVersionBuffer now : Int) :
    ∀ (l done toAdd : List IndexingRule) (i : Nat) (r : IndexingRule)
      (sg : Subgraph) (lv pv : SubgraphVersion),
    l[i]? = some r →
    r.identifierType = SubgraphIdentifierType.SUBGRAPH →
    (subgraphs.find? fun subgraph => subgraph.id == r.identifier) = some sg →
    latestVersionOf sg = some lv →
    previousVersionOf sg = some pv →
    now - previousVersionBuffer < (lv.createdAt : Int) →
    deploymentRuleInList
      (convertGo subgraphs previousVersionBuffer now done toAdd l).1 pv.deployment =
        false →
    ∃ o, (convertGo subgraphs previousVersionBuffer now done toAdd l).1[done.length +
        i]? = some o ∧
      rewriteRule o pv.deployment ∈
        (convertGo subgraphs previousVersionBuffer now done toAdd l).2
  | [], done, toAdd, i, r, sg, lv, pv, hr, ht, hfind, hlv, hpv, hbuf, hfar => by
    simp at hr
  | x :: rest, done, toAdd, 0, r, sg, lv, pv, hr, ht, hfind, hlv, hpv, hbuf, hfar => by
    have hx : x = r := by simpa using hr
    subst hx
    rw [convertGo] at hfar ⊢
    refine ⟨processedRule subgraphs done x rest, ?_, ?_⟩
    · rw [convertGo_fst_keeps_done subgraphs previousVersionBuffer now rest _ _
        (done.length + 0) (by simp)]
      simp
    · cases hcheck : deploymentRuleInList
          (done ++ processedRule subgraphs done x rest :: rest) pv.deployment with
      | true =>
        exfalso
        have := convertGo_targets_mono subgraphs previousVersionBuffer now rest
          (done ++ [processedRule subgraphs done x rest])
          (toAdd ++ previousVersionCopies subgraphs previousVersionBuffer now done
            x rest) pv.deployment
          (by rw [show (done ++ [processedRule subgraphs done x rest]) ++ rest =
              done ++ processedRule subgraphs done x rest :: rest by simp]
              exact hcheck)
        rw [this] at hfar
        exact Bool.noConfusion hfar
      | false =>
        apply convertGo_snd_mono subgraphs previousVersionBuffer now rest
        rw [previousVersionCopies_mem_of subgraphs previousVersionBuffer now done
          x rest sg lv pv ht hfind hlv hpv hbuf hcheck]
        simp
  | x :: rest, done, toAdd, i + 1, r, sg, lv, pv, hr, ht, hfind, hlv, hpv, hbuf,
      hfar => by
    have hr1 : rest[i]? = some r := by simpa using hr
    rw [convertGo] at hfar ⊢
    rcases convertGo_copy_within_buffer subgraphs previousVersionBuffer now rest
      (done ++ [processedRule subgraphs done x rest])
      (toAdd ++ previousVersionCopies subgraphs previousVersionBuffer now done x rest)
      i r sg lv pv hr1 ht hfind hlv hpv hbuf hfar with ⟨o, ho, hmem⟩
    refine ⟨o, ?_, hmem⟩
    rw [show done.length + (i + 1) =
      (done ++ [processedRule subgraphs done x rest]).length + i by simp; omega]
    exact ho

theorem convertGo_snd_spec (subgraphs : List Subgraph)
    (previousVersionBuffer now : Int) :
    ∀ (l done toAdd : List IndexingRule) (x : IndexingRule),
    x ∈ (convertGo subgraphs previousVersionBuffer now done toAdd l).2 →
    x ∈ toAdd ∨
    ∃ (i : Nat) (r : IndexingRule) (sg : Subgraph) (lv pv : SubgraphVersion)
      (o : IndexingRule),
      l[i]? = some r ∧
      (subgraphs.find? fun subgraph => subgraph.id == r.identifier) = some sg ∧
      latestVersionOf sg = some lv ∧
      previousVersionOf sg = some pv ∧
      now - previousVersionBuffer < (lv.createdAt : Int) ∧
      (convertGo subgraphs previousVersionBuffer now done toAdd l).1[done.length +
        i]? = some o ∧
      x = rewriteRule o pv.deployment
  | [], done, toAdd, x, hx => by
    rw [convertGo] at hx
    exact Or.inl hx
  | r :: rest, done, toAdd, x, hx => by
    rw [convertGo] at hx
    rcases convertGo_snd_spec subgraphs previousVersionBuffer now rest
      (done ++ [processedRule subgraphs done r rest])
      (toAdd ++ previousVersionCopies subgraphs previousVersionBuffer now done r rest)
      x hx with h | ⟨i, r1, sg, lv, pv, o, hr1, hfind, hlv, hpv, hbuf, ho, hxo⟩
    · rcases List.mem_append.mp h with h1 | h2
      · exact Or.inl h1
      · rcases mem_previousVersionCopies subgraphs previousVersionBuffer now done
          r rest x h2 with ⟨sg, lv, pv, hfind, hlv, hpv, hbuf, hxo⟩
        refine Or.inr ⟨0, r, sg, lv, pv, processedRule subgraphs done r rest,
          by simp, hfind, hlv, hpv, hbuf, ?_, hxo⟩
        rw [convertGo]
        rw [convertGo_fst_keeps_done subgraphs previousVersionBuffer now rest _ _
          (done.length + 0) (by simp)]
        simp
    · refine Or.inr ⟨i + 1, r1, sg, lv, pv, o, by simpa using hr1, hfind, hlv, hpv,
        hbuf, ?_, hxo⟩
      rw [convertGo]
      rw [show done.length + (i + 1) =
        (done ++ [processedRule subgraphs done r rest]).length + i by simp; omega]
      exact ho

/-- Counterexample to claim C6 as stated. First input: a SUBGRAPH-typed rule whose
subgraph is found but whose latest version's deployment is already targeted by an
existing DEPLOYMENT rule is left SUBGRAPH-typed, not rewritten. Second input: two
SUBGRAPH rules on the same network whose subgraphs share the previous-version deployment
"QmP" both append a copy targeting "QmP", producing a duplicate (network, identifier)
pair. -/
theorem convert_rule_normalization_counterexample :
    ((convertSubgraphBasedRulesToDeploymentBased
      [{ identifier := "QmX", identifierType := SubgraphIdentifierType.DEPLOYMENT,
         decisionBasis := IndexingDecisionBasis.RULES, allocationAmount := 0,
         allocationLifetime := none, protocolNetwork := "eip155:1" },
       { identifier := "sg1", identifierType := SubgraphIdentifierType.SUBGRAPH,
         decisionBasis := IndexingDecisionBasis.RULES, allocationAmount := 0,
         allocationLifetime := none, protocolNetwork := "eip155:1" }]
      [{ id := "sg1", versionCount := 1,
         versions := [{ version := 0, createdAt := 0,
                        deployment := { bytes32 := "QmX", oid := 0 } }] }]
      0 100).map fun r => r.identifierType) =
      [SubgraphIdentifierType.DEPLOYMENT, SubgraphIdentifierType.SUBGRAPH] ∧
    ((convertSubgraphBasedRulesToDeploymentBased
      [{ identifier := "sgA", identifierType := SubgraphIdentifierType.SUBGRAPH,
         decisionBasis := IndexingDecisionBasis.RULES, allocationAmount := 0,
         allocationLifetime := none, protocolNetwork := "eip155:1" },
       { identifier := "sgB", identifierType := SubgraphIdentifierType.SUBGRAPH,
         decisionBasis := IndexingDecisionBasis.RULES, allocationAmount := 0,
         allocationLifetime := none, protocolNetwork := "eip155:1" }]
      [{ id := "sgA", versionCount := 2,
         versions := [{ version := 0, createdAt := 0,
                        deployment := { bytes32 := "QmP", oid := 1 } },
                      { version := 1, createdAt := 1000,
                        deployment := { bytes32 := "QmA", oid := 2 } }] },
       { id := "sgB", versionCount := 2,
         versions := [{ version := 0, createdAt := 0,
                        deployment := { bytes32 := "QmP", oid := 3 } },
                      { version := 1, createdAt := 1000,
                        deployment := { bytes32 := "QmB", oid := 4 } }] }]
      10000 1000).filter fun r =>
        r.identifier == "QmP" && r.protocolNetwork == "eip155:1").length = 2 := by
  constructor
  · rfl
  · rfl

/-- Claim C6 (amended): for every SUBGRAPH-typed rule whose subgraph and latest version
are found, the output entry at its position is either the in-place rewrite to the latest
deployment (identifierType DEPLOYMENT, identifier the latest deployment) or the unchanged
rule, the latter only when the returned main list already targets that deployment; a
previous-version copy of the (possibly rewritten) rule is appended whenever the latest
version falls within the buffer window, the previous version exists and the returned main
list does not target it; and every appended entry is such a previous-version copy of some
main-list entry whose latest version falls within the buffer window. Appended copies are
not checked against each other, so duplicate (network, identifier) pairs can occur among
them. -/
theorem convert_rule_normalization_amended (rules : List IndexingRule)
    (subgraphs : List Subgraph) (previousVersionBuffer now : Int) :
    (∀ (i : Nat) (r : IndexingRule) (sg : Subgraph) (lv : SubgraphVersion),
      rules[i]? = some r →
      r.identifierType = SubgraphIdentifierType.SUBGRAPH →
      (subgraphs.find? fun subgraph => subgraph.id == r.identifier) = some sg →
      latestVersionOf sg = some lv →
      ∃ o, ((convertSubgraphBasedRulesToDeploymentBased rules subgraphs
          previousVersionBuffer now).take rules.length)[i]? = some o ∧
        (o = rewriteRule r lv.deployment ∨
          (o = r ∧ deploymentRuleInList
            ((convertSubgraphBasedRulesToDeploymentBased rules subgraphs
              previousVersionBuffer now).take rules.length) lv.deployment = true))) ∧
    (∀ (i : Nat) (r : IndexingRule) (sg : Subgraph) (lv pv : SubgraphVersion),
      rules[i]? = some r →
      r.identifierType = SubgraphIdentifierType.SUBGRAPH →
      (subgraphs.find? fun subgraph => subgraph.id == r.identifier) = some sg →
      latestVersionOf sg = some lv →
      previousVersionOf sg = some pv →
      now - previousVersionBuffer < (lv.createdAt : Int) →
      deploymentRuleInList ((convertSubgraphBasedRulesToDeploymentBased rules subgraphs
        previousVersionBuffer now).take rules.length) pv.deployment = false →
      ∃ o, ((convertSubgraphBasedRulesToDeploymentBased rules subgraphs
          previousVersionBuffer now).take rules.length)[i]? = some o ∧
        rewriteRule o pv.deployment ∈
          (convertSubgraphBasedRulesToDeploymentBased rules subgraphs
            previousVersionBuffer now).drop rules.length) ∧
    (∀ x ∈ (convertSubgraphBasedRulesToDeploymentBased rules subgraphs
        previousVersionBuffer now).drop rules.length,
      ∃ (i : Nat) (r : IndexingRule) (sg : Subgraph) (lv pv : SubgraphVersion)
        (o : IndexingRule),
        rules[i]? = some r ∧
        (subgraphs.find? fun subgraph => subgraph.id == r.identifier) = some sg ∧
        latestVersionOf sg = some lv ∧
        previousVersionOf sg = some pv ∧
        now - previousVersionBuffer < (lv.createdAt : Int) ∧
        ((convertSubgraphBasedRulesToDeploymentBased rules subgraphs
          previousVersionBuffer now).take rules.length)[i]? = some o ∧
        x = rewriteRule o pv.deployment) := by
  have hlen : (convertGo subgraphs previousVersionBuffer now [] [] rules).1.length =
      rules.length := by
    rw [convertGo_fst_length]
    simp
  have htake : (convertSubgraphBasedRulesToDeploymentBased rules subgraphs
      previousVersionBuffer now).take rules.length =
      (convertGo subgraphs previousVersionBuffer now [] [] rules).1 := by
    rw [convertSubgraphBasedRulesToDeploymentBased, ← hlen, List.take_left]
  have hdrop : (convertSubgraphBasedRulesToDeploymentBased rules subgraphs
      previousVersionBuffer now).drop rules.length =
      (convertGo subgraphs previousVersionBuffer now [] [] rules).2 := by
    rw [convertSubgraphBasedRulesToDeploymentBased, ← hlen, List.drop_left]
  refine ⟨?_, ?_, ?_⟩
  · intro i r sg lv hr ht hfind hlv
    rw [htake]
    rcases convertGo_rewrite_or_targeted subgraphs previousVersionBuffer now rules
      [] [] i r sg lv hr ht hfind hlv with ⟨o, ho, hcase⟩
    exact ⟨o, by simpa using ho, hcase⟩
  · intro i r sg lv pv hr ht hfind hlv hpv hbuf hfar
    rw [htake] at hfar ⊢
    rw [hdrop]
    rcases convertGo_copy_within_buffer subgraphs previousVersionBuffer now rules
      [] [] i r sg lv pv hr ht hfind hlv hpv hbuf hfar with ⟨o, ho, hmem⟩
    exact ⟨o, by simpa using ho, hmem⟩
  · intro x hx
    rw [hdrop] at hx
    rcases convertGo_snd_spec subgraphs previousVersionBuffer now rules [] [] x hx
      with h | ⟨i, r, sg, lv, pv, o, hr, hfind, hlv, hpv, hbuf, ho, hxo⟩
    · simp at h
    · rw [htake]
      exact ⟨i, r, sg, lv, pv, o, hr, hfind, hlv, hpv, hbuf, by simpa using ho, hxo⟩

/-- The on-chain allocation record returned by `staking.getAllocation`; the code reads
only `closedAtEpoch` (compared to zero via `BigNumber.eq`). -/
structure OnChainAllocation where
  closedAtEpoch : Nat
deriving DecidableEq, Repr

/-- The desired allocation lifetime computed at part_001:948-951. The source uses a
JavaScript conditional on `ruleMatch.rule?.allocationLifetime`, so the rule's lifetime is
used only when it is truthy — present and nonzero; a missing rule, a missing lifetime, or
a lifetime of `0` all fall back to `max(1, maxAllocationEpochs - 1)` (for
`maxAllocationEpochs = 0` JavaScript computes `max(1, -1) = 1`, and so does the truncated
subtraction here). -/
def desiredAllocationLifetime (deploymentAllocationDecision : AllocationDecision)
    (maxAllocationEpochs : Nat) : Nat :=
  match deploymentAllocationDecision.ruleMatch.rule with
  | some rule =>
    match rule.allocationLifetime with
    | some lifetime =>
      if lifetime ≠ 0 then lifetime else max 1 (maxAllocationEpochs - 1)
    | none => max 1 (maxAllocationEpochs - 1)
  | none => max 1 (maxAllocationEpochs - 1)

/-- Source `Agent.identifyExpiringAllocations` (part_001:940-983): filter the given
active allocations to those whose age has reached the desired lifetime
(`epoch >= createdAtEpoch + desiredAllocationLifetime`), then cross-check each candidate
on chain and keep exactly those with `closedAtEpoch == 0`; a failed contract read
(`getAllocation` returning `none`) is caught and the allocation kept (treated as still
open). -/
def identifyExpiringAllocations
    (getAllocation : String → Option OnChainAllocation)
    (activeAllocations : List Allocation)
    (deploymentAllocationDecision : AllocationDecision)
    (epoch maxAllocationEpochs : Nat) : List Allocation :=
  let expiredAllocations := activeAllocations.filter fun allocation =>
    decide (allocation.createdAtEpoch +
      desiredAllocationLifetime deploymentAllocationDecision maxAllocationEpochs ≤
        epoch)
  expiredAllocations.filter fun allocation =>
    match getAllocation allocation.id with
    | some onChainAllocation => onChainAllocation.closedAtEpoch == 0
    | none => true

/-- Counterexample to claim C7 as stated: with a matching rule whose
`allocationLifetime` is `0` ("set"), an allocation created at epoch 100 and current epoch
100, the claim's lifetime (`0`) makes the allocation expired
(`100 >= 100 + 0`) and the chain reports it open, yet the code returns the empty list,
because the JavaScript conditional treats the lifetime `0` as falsy and falls back to
`max(1, 28 - 1) = 27`. -/
theorem identifyExpiring_lifetime_zero_counterexample :
    identifyExpiringAllocations (fun _ => some ⟨0⟩)
      [⟨"0xa1", "0xi", ⟨⟨"0xd", 0⟩⟩, 0, 100, 0, none, none, none⟩]
      ⟨⟨"0xd", 0⟩, true,
        ⟨some ⟨"0xd", SubgraphIdentifierType.DEPLOYMENT,
          IndexingDecisionBasis.RULES, 0, some 0, "eip155:1"⟩, "rules"⟩⟩
      100 28 = [] ∧
    (100 : Nat) + 0 ≤ 100 := by
  constructor
  · rfl
  · decide

/-- Claim C7 (amended): `identifyExpiringAllocations` returns exactly the given active
allocations whose age has reached the desired lifetime and that are still open on chain
(`closedAtEpoch == 0`), keeping any allocation whose contract read fails — where the
desired lifetime is the rule's `allocationLifetime` when it is set and nonzero, and
`max(1, maxAllocationEpochs - 1)` when the rule or its lifetime is missing or the
lifetime is `0` (JavaScript truthiness). -/
theorem identifyExpiring_spec
    (getAllocation : String → Option OnChainAllocation)
    (activeAllocations : List Allocation)
    (deploymentAllocationDecision : AllocationDecision)
    (epoch maxAllocationEpochs : Nat) :
    (∀ a, a ∈ identifyExpiringAllocations getAllocation activeAllocations
        deploymentAllocationDecision epoch maxAllocationEpochs ↔
      (a ∈ activeAllocations ∧
        a.createdAtEpoch + desiredAllocationLifetime deploymentAllocationDecision
          maxAllocationEpochs ≤ epoch ∧
        (getAllocation a.id = none ∨
          ∃ onChainAllocation, getAllocation a.id = some onChainAllocation ∧
            onChainAllocation.closedAtEpoch = 0))) ∧
    (∀ rule lifetime, deploymentAllocationDecision.ruleMatch.rule = some rule →
      rule.allocationLifetime = some lifetime → lifetime ≠ 0 →
      desiredAllocationLifetime deploymentAllocationDecision maxAllocationEpochs =
        lifetime) ∧
    (∀ rule, deploymentAllocationDecision.ruleMatch.rule = some rule →
      (rule.allocationLifetime = none ∨ rule.allocationLifetime = some 0) →
      desiredAllocationLifetime deploymentAllocationDecision maxAllocationEpochs =
        max 1 (maxAllocationEpochs - 1)) ∧
    (deploymentAllocationDecision.ruleMatch.rule = none →
      desiredAllocationLifetime deploymentAllocationDecision maxAllocationEpochs =
        max 1 (maxAllocationEpochs - 1)) := by
  refine ⟨?_, ?_, ?_, ?_⟩
  · intro a
    rw [identifyExpiringAllocations]
    simp only [List.mem_filter]
    constructor
    · rintro ⟨⟨hmem, hage⟩, hopen⟩
      refine ⟨hmem, by simpa using hage, ?_⟩
      cases h : getAllocation a.id with
      | none => exact Or.inl rfl
      | some oc =>
        rw [h] at hopen
        exact Or.inr ⟨oc, rfl, by simpa using hopen⟩
    · rintro ⟨hmem, hage, hopen⟩
      refine ⟨⟨hmem, by simpa using hage⟩, ?_⟩
      rcases hopen with h | ⟨oc, h, hoc⟩
      · rw [h]
      · rw [h]
        simpa using hoc
  · intro rule lifetime hrule hlt hne
    simp only [desiredAllocationLifetime, hrule, hlt]
    rw [if_pos hne]
  · intro rule hrule hlt
    rcases hlt with h | h
    · simp only [desiredAllocationLifetime, hrule, h]
    · simp only [desiredAllocationLifetime, hrule, h]
      simp
  · intro hrule
    simp only [desiredAllocationLifetime, hrule]

/-- Per-network configuration and collaborator behaviour consulted by
`reconcileActions` and `reconcileDeploymentAllocationAction`. `freshActiveAllocations`
models the re-read `network.networkMonitor.allocations(ACTIVE)` at part_001:1000-1001,
`closedAllocations` the result of `networkMonitor.closedAllocations(deployment)` (most
recent first), and `getAllocation` the `staking.getAllocation` contract read (`none` for
an RPC error). -/
structure NetworkConfig where
  allocationManagementMode : AllocationManagementMode
  networkSubgraphDeployment : Option SubgraphDeploymentID
  allocateOnNetworkSubgraph : Bool
  freshActiveAllocations : List Allocation
  closedAllocations : SubgraphDeploymentID → List Allocation
  getAllocation : String → Option OnChainAllocation

/-- One side-effectful operator call issued by the action reconciler per network. -/
inductive ActionCall where
  | closeEligibleAllocations (network : String) (decision : AllocationDecision)
      (activeDeploymentAllocations : List Allocation) (epoch : Nat)
  | createAllocation (network : String) (decision : AllocationDecision)
      (mostRecentlyClosedAllocation : Option Allocation)
  | refreshExpiredAllocations (network : String) (decision : AllocationDecision)
      (expiringAllocations : List Allocation)
deriving DecidableEq, Repr

/-- The network a call is issued for. -/
def ActionCall.network : ActionCall → String
  | .closeEligibleAllocations n _ _ _ => n
  | .createAllocation n _ _ => n
  | .refreshExpiredAllocations n _ _ => n

/-- Source `Agent.reconcileDeploymentAllocationAction` (part_001:985-1053): re-read the
active allocations, restrict them to the decision's deployment by `bytes32`, then issue
`closeEligibleAllocations` when `toAllocate` is false, `createAllocation` (with the most
recently closed allocation, if any) when there is no active allocation for the
deployment, and `refreshExpiredAllocations` when some active allocations are expiring;
otherwise no call is issued. -/
def reconcileDeploymentAllocationAction (cfg : NetworkConfig)
    (networkIdentifier : String)
    (deploymentAllocationDecision : AllocationDecision)
    (epoch maxAllocationEpochs : Nat) : Option ActionCall :=
  let activeDeploymentAllocations := cfg.freshActiveAllocations.filter fun allocation =>
    allocation.subgraphDeployment.id.bytes32 ==
      deploymentAllocationDecision.deployment.bytes32
  let expiringAllocations := identifyExpiringAllocations cfg.getAllocation
    activeDeploymentAllocations deploymentAllocationDecision epoch
    maxAllocationEpochs
  match deploymentAllocationDecision.toAllocate with
  | false =>
    some (.closeEligibleAllocations networkIdentifier deploymentAllocationDecision
      activeDeploymentAllocations epoch)
  | true =>
    if activeDeploymentAllocations.length == 0 then
      some (.createAllocation networkIdentifier deploymentAllocationDecision
        (cfg.closedAllocations deploymentAllocationDecision.deployment).head?)
    else
      if 0 < expiringAllocations.length then
        some (.refreshExpiredAllocations networkIdentifier
          deploymentAllocationDecision expiringAllocations)
      else none

/-- Set `toAllocate := false` on the decision at the given index, leaving everything
else unchanged (the in-place array write at part_001:1120). -/
def setToAllocateFalse : List AllocationDecision → Nat → List AllocationDecision
  | [], _ => []
  | d :: rest, 0 => { d with toAllocate := false } :: rest
  | d :: rest, n + 1 => d :: setToAllocateFalse rest n

/-- The network-subgraph guard of `reconcileActions` (part_001:1101-1125): when the
network's meta-subgraph deployment is configured and `allocateOnNetworkSubgraph` is
false, the first decision whose deployment equals it by `bytes32` (if any) has its
`toAllocate` forced to false; all other decisions are unchanged. `List.findIdx` returns
the list length when nothing matches, standing for the source's `findIndex` returning
`-1` and the `>= 0` test failing. -/
def guardDecisions (networkSubgraphDeployment : Option SubgraphDeploymentID)
    (allocateOnNetworkSubgraph : Bool)
    (allocationDecisions : List AllocationDecision) : List AllocationDecision :=
  match networkSubgraphDeployment with
  | some nsd =>
    if !allocateOnNetworkSubgraph then
      if (allocationDecisions.findIdx fun decision =>
          decision.deployment.bytes32 == nsd.bytes32) <
            allocationDecisions.length then
        setToAllocateFalse allocationDecisions
          (allocationDecisions.findIdx fun decision =>
            decision.deployment.bytes32 == nsd.bytes32)
      else allocationDecisions
    else allocationDecisions
  | none => allocationDecisions

/-- Source `Agent.reconcileActions` (part_001:1057-1171), with `MultiNetworks` modelled
from the spec (§4.2): network-keyed maps are association lists in `Object.entries` order,
`mapNetworkMapped` joins a map with the networks by identifier and applies the function
per entry, and `zip4` aligns four maps by identifier — modelled by giving the networks
and the epoch and max-allocation-epochs maps as total assignments on identifiers. Step 1
drops every network in MANUAL allocation-management mode (the `delete` loop, modelled as
an order-preserving filter) and returns early when nothing remains; step 2 applies the
network-subgraph guard; step 3 issues, per remaining network in order and per decision in
order, the call computed by `reconcileDeploymentAllocationAction`. The `activeAllocations`
argument is used by the source only for logging. -/
def reconcileActions (env : String → NetworkConfig)
    (networkDeploymentAllocationDecisions : List (String × List AllocationDecision))
    (activeAllocations : List (String × List Allocation))
    (epoch maxAllocationEpochs : String → Nat) : List ActionCall :=
  let remaining := networkDeploymentAllocationDecisions.filter fun p =>
    !((env p.1).allocationManagementMode == AllocationManagementMode.MANUAL)
  if remaining.isEmpty then []
  else
    let filteredNetworkDeploymentAllocationDecisions := remaining.map fun p =>
      (p.1, guardDecisions (env p.1).networkSubgraphDeployment
        (env p.1).allocateOnNetworkSubgraph p.2)
    (filteredNetworkDeploymentAllocationDecisions.map fun p =>
      p.2.filterMap fun decision =>
        reconcileDeploymentAllocationAction (env p.1) p.1 decision (epoch p.1)
          (maxAllocationEpochs p.1)).flatten

theorem reconcileDeploymentAllocationAction_network (cfg : NetworkConfig)
    (networkIdentifier : String) (decision : AllocationDecision)
    (epoch maxAllocationEpochs : Nat) (call : ActionCall)
    (h : reconcileDeploymentAllocationAction cfg networkIdentifier decision epoch
      maxAllocationEpochs = some call) :
    call.network = networkIdentifier := by
  rw [reconcileDeploymentAllocationAction] at h
  split at h
  · cases h
    rfl
  · split at h
    · cases h
      rfl
    · split at h
      · cases h
        rfl
      · cases h

/-- Claim C2: networks whose `allocationManagementMode` is MANUAL are dropped before
per-deployment processing, so no `closeEligibleAllocations`, `createAllocation` or
`refreshExpiredAllocations` call is issued for them; and when every network is in MANUAL
mode, `reconcileActions` issues no call at all. -/
theorem manual_mode_isolation (env : String → NetworkConfig)
    (networkDeploymentAllocationDecisions : List (String × List AllocationDecision))
    (activeAllocations : List (String × List Allocation))
    (epoch maxAllocationEpochs : String → Nat) :
    (∀ n, (env n).allocationManagementMode = AllocationManagementMode.MANUAL →
      ∀ call ∈ reconcileActions env networkDeploymentAllocationDecisions
        activeAllocations epoch maxAllocationEpochs, call.network ≠ n) ∧
    ((∀ p ∈ networkDeploymentAllocationDecisions,
        (env p.1).allocationManagementMode = AllocationManagementMode.MANUAL) →
      reconcileActions env networkDeploymentAllocationDecisions activeAllocations
        epoch maxAllocationEpochs = []) := by
  constructor
  · intro n hn call hcall
    rw [reconcileActions] at hcall
    split at hcall
    · simp at hcall
    · rcases List.mem_flatten.mp hcall with ⟨calls, hcallsmem, hmem⟩
      rcases List.mem_map.mp hcallsmem with ⟨p, hp, rfl⟩
      rcases List.mem_map.mp hp with ⟨q, hq, rfl⟩
      have hqmode := (List.mem_filter.mp hq).2
      rcases List.mem_filterMap.mp hmem with ⟨decision, hdec, hact⟩
      have hnet := reconcileDeploymentAllocationAction_network _ _ _ _ _ _ hact
      rw [hnet]
      intro heq
      rw [heq] at hqmode
      rw [hn] at hqmode
      simp at hqmode
  · intro hall
    rw [reconcileActions]
    have hempty : (networkDeploymentAllocationDecisions.filter fun p =>
        !((env p.1).allocationManagementMode == AllocationManagementMode.MANUAL)) =
          [] := by
      rw [List.filter_eq_nil_iff]
      intro p hp
      rw [hall p hp]
      simp
    rw [hempty]
    simp

theorem setToAllocateFalse_length (l : List AllocationDecision) (n : Nat) :
    (setToAllocateFalse l n).length = l.length := by
  induction l generalizing n with
  | nil => rfl
  | cons d rest ih =>
    cases n with
    | zero => rfl
    | succ m => simp [setToAllocateFalse, ih]

theorem setToAllocateFalse_getElem (l : List AllocationDecision) (n i : Nat) :
    (setToAllocateFalse l n)[i]? =
      if i = n then l[i]?.map (fun d => { d with toAllocate := false })
      else l[i]? := by
  induction l generalizing n i with
  | nil => simp [setToAllocateFalse]
  | cons d rest ih =>
    cases n with
    | zero =>
      cases i with
      | zero => simp [setToAllocateFalse]
      | succ j => simp [setToAllocateFalse]
    | succ m =>
      cases i with
      | zero => simp [setToAllocateFalse]
      | succ j =>
        simp only [setToAllocateFalse, List.getElem?_cons_succ, ih]
        by_cases hij : j = m <;> simp [hij]

/-- Claim C9: the network-subgraph guard keeps the decision list's length, never turns
`toAllocate` from false to true, and whenever an output entry differs from its input
entry the meta-subgraph deployment is configured, `allocateOnNetworkSubgraph` is false,
the entry is the first decision matching that deployment by `bytes32`, and it differs
only by `toAllocate` being forced to false. -/
theorem network_subgraph_guard_frame
    (networkSubgraphDeployment : Option SubgraphDeploymentID)
    (allocateOnNetworkSubgraph : Bool)
    (allocationDecisions : List AllocationDecision) :
    (guardDecisions networkSubgraphDeployment allocateOnNetworkSubgraph
      allocationDecisions).length = allocationDecisions.length ∧
    (∀ (i : Nat) (d o : AllocationDecision), allocationDecisions[i]? = some d →
      (guardDecisions networkSubgraphDeployment allocateOnNetworkSubgraph
        allocationDecisions)[i]? = some o →
      o.deployment = d.deployment ∧ o.ruleMatch = d.ruleMatch ∧
        (o.toAllocate = true → d.toAllocate = true)) ∧
    (∀ (i : Nat) (d o : AllocationDecision), allocationDecisions[i]? = some d →
      (guardDecisions networkSubgraphDeployment allocateOnNetworkSubgraph
        allocationDecisions)[i]? = some o →
      o ≠ d →
      ∃ nsd, networkSubgraphDeployment = some nsd ∧
        allocateOnNetworkSubgraph = false ∧
        d.deployment.bytes32 = nsd.bytes32 ∧
        o = { d with toAllocate := false } ∧
        i = allocationDecisions.findIdx fun decision =>
          decision.deployment.bytes32 == nsd.bytes32) := by
  have hcases : guardDecisions networkSubgraphDeployment allocateOnNetworkSubgraph
        allocationDecisions = allocationDecisions ∨
      ∃ nsd, networkSubgraphDeployment = some nsd ∧
        allocateOnNetworkSubgraph = false ∧
        (allocationDecisions.findIdx fun decision =>
          decision.deployment.bytes32 == nsd.bytes32) <
            allocationDecisions.length ∧
        guardDecisions networkSubgraphDeployment allocateOnNetworkSubgraph
          allocationDecisions = setToAllocateFalse allocationDecisions
            (allocationDecisions.findIdx fun decision =>
              decision.deployment.bytes32 == nsd.bytes32) := by
    cases networkSubgraphDeployment with
    | none => exact Or.inl rfl
    | some nsd =>
      cases hb : allocateOnNetworkSubgraph with
      | true => exact Or.inl (by rw [guardDecisions.eq_def]; simp)
      | false =>
        by_cases hlt : (allocationDecisions.findIdx fun decision =>
            decision.deployment.bytes32 == nsd.bytes32) <
              allocationDecisions.length
        · exact Or.inr ⟨nsd, rfl, rfl, hlt,
            by rw [guardDecisions.eq_def]; simp [hlt]⟩
        · exact Or.inl (by rw [guardDecisions.eq_def]; simp [hlt])
  rcases hcases with heq | ⟨nsd, hnsd, hb, hlt, heq⟩
  · rw [heq]
    refine ⟨rfl, ?_, ?_⟩
    · intro i d o hd ho
      rw [hd] at ho
      cases ho
      exact ⟨rfl, rfl, fun h => h⟩
    · intro i d o hd ho hne
      rw [hd] at ho
      cases ho
      exact absurd rfl hne
  · rw [heq]
    refine ⟨setToAllocateFalse_length _ _, ?_, ?_⟩
    · intro i d o hd ho
      rw [setToAllocateFalse_getElem] at ho
      by_cases hi : i = allocationDecisions.findIdx fun decision =>
          decision.deployment.bytes32 == nsd.bytes32
      · rw [if_pos hi, hd] at ho
        simp only [Option.map_some'] at ho
        cases ho
        exact ⟨rfl, rfl, by simp⟩
      · rw [if_neg hi, hd] at ho
        cases ho
        exact ⟨rfl, rfl, fun h => h⟩
    · intro i d o hd ho hne
      rw [setToAllocateFalse_getElem] at ho
      by_cases hi : i = allocationDecisions.findIdx fun decision =>
          decision.deployment.bytes32 == nsd.bytes32
      · rw [if_pos hi, hd] at ho
        simp only [Option.map_some'] at ho
        refine ⟨nsd, hnsd, hb, ?_, by cases ho; rfl, hi⟩
        have hget : allocationDecisions[allocationDecisions.findIdx
            fun decision => decision.deployment.bytes32 == nsd.bytes32]? =
              some d := by
          rw [← hi]
          exact hd
        have hpred := List.findIdx_of_getElem?_eq_some hget
        simpa using hpred
      · rw [if_neg hi, hd] at ho
        cases ho
        exact absurd rfl hne

/-- A block header as returned by `networkProvider.getBlock`. -/
structure Block where
  number : Nat
  hash : String
deriving DecidableEq, Repr

/-- A POI dispute row (`POIDisputeAttributes`), as built at part_001:803-821.
`allocationAmount` is the decimal rendering of `allocatedTokens`
(`allocation.allocatedTokens.toString()`); `allocationProof` is `allocation.poi!`, which
is simply the (possibly missing) poi. -/
structure POIDispute where
  allocationID : String
  subgraphDeploymentID : String
  allocationIndexer : String
  allocationAmount : String
  allocationProof : Option String
  closedEpoch : Nat
  closedEpochReferenceProof : Option String
  closedEpochStartBlockHash : Option String
  closedEpochStartBlockNumber : Option Nat
  previousEpochReferenceProof : Option String
  previousEpochStartBlockHash : Option String
  previousEpochStartBlockNumber : Option Nat
  status : String
  protocolNetwork : String
deriving DecidableEq, Repr

/-- A rewards pool (spec §3). Per the spec, "Equality is structural", so
`subgraphDeployment` is kept as the deployment's canonical rendering; reference POIs and
block numbers start empty and are filled during dispute identification. -/
structure RewardsPool where
  subgraphDeployment : String
  closedAtEpoch : Nat
  closedAtEpochStartBlockHash : Option String
  closedAtEpochStartBlockNumber : Option Nat
  previousEpochStartBlockHash : Option String
  previousEpochStartBlockNumber : Option Nat
  allocationIndexer : String
  referencePOI : Option String
  referencePreviousPOI : Option String
deriving DecidableEq, Repr

/-- Modelled from the spec: `allocationRewardsPool` (imported from indexer-common, not
under src/) builds the rewards pool row of an allocation from its deployment, closing
epoch, the two epoch-start block hashes and the indexer (spec §3, §4.6 step 3). -/
def allocationRewardsPool (allocation : Allocation) : RewardsPool :=
  { subgraphDeployment := allocation.subgraphDeployment.id.bytes32
    closedAtEpoch := allocation.closedAtEpoch
    closedAtEpochStartBlockHash := allocation.closedAtEpochStartBlockHash
    closedAtEpochStartBlockNumber := none
    previousEpochStartBlockHash := allocation.previousEpochStartBlockHash
    previousEpochStartBlockNumber := none
    allocationIndexer := allocation.indexer
    referencePOI := none
    referencePreviousPOI := none }

/-- Modelled from the spec: `allocationRewardsPool` rows are grouped (§4.6 step 3) into unique rows keyed by
`(subgraphDeployment, closedAtEpoch)`, keeping the first row per key. The classification
step looks up the first pool matching this key, so keeping the first row is
observationally equal to the source's behaviour. -/
def uniqueRewardsPoolsGo (seen : List (String × Nat)) :
    List RewardsPool → List RewardsPool
  | [] => []
  | pool :: rest =>
    if seen.any fun key =>
        key.1 == pool.subgraphDeployment && key.2 == pool.closedAtEpoch then
      uniqueRewardsPoolsGo seen rest
    else pool :: uniqueRewardsPoolsGo
      ((pool.subgraphDeployment, pool.closedAtEpoch) :: seen) rest

/-- Modelled from the spec: the unique rewards pools of §4.6 step 3. -/
def uniqueRewardsPools (pools : List RewardsPool) : List RewardsPool :=
  uniqueRewardsPoolsGo [] pools

/-- JavaScript falsiness of an optional string: missing (`undefined` / `null`) or the
empty string. -/
def isFalsy : Option String → Bool
  | none => true
  | some s => s == ""

/-- External reads performed during dispute identification: the network provider's block
lookup (`none` models a rejected promise) and the graph node's `proofOfIndexing`
(`none` models a `null` POI). -/
structure DisputeEnv where
  getBlock : String → Option Block
  proofOfIndexing : String → Block → String → Option String

/-- Sequencing of fallible per-element computations, as `Promise.all` over an already
started list of promises: the first failure fails the whole list. -/
def mapExcept (f : α → Except String β) : List α → Except String (List β)
  | [] => .ok []
  | x :: rest =>
    match f x with
    | .error e => .error e
    | .ok y =>
      match mapExcept f rest with
      | .error e => .error e
      | .ok ys => .ok (y :: ys)

/-- Enrichment of one rewards pool (part_001:743-773): look up the two epoch-start
blocks via the provider and fetch the two reference POIs for the pool's indexer at those
blocks. A missing `previousEpochStartBlockHash` (the source dereferences it with `!` and
would pass `undefined` to `getBlock`) or a failed block lookup is an error that fails
the whole dispute-identification step. -/
def enrichPool (env : DisputeEnv) (pool : RewardsPool) : Except String RewardsPool :=
  match pool.closedAtEpochStartBlockHash with
  | none => .error "missing closedAtEpochStartBlockHash"
  | some closedHash =>
    match env.getBlock closedHash with
    | none => .error "getBlock failed"
    | some closedAtEpochStartBlock =>
      match pool.previousEpochStartBlockHash with
      | none => .error "missing previousEpochStartBlockHash"
      | some previousHash =>
        match env.getBlock previousHash with
        | none => .error "getBlock failed"
        | some previousEpochStartBlock =>
          .ok { pool with
            closedAtEpochStartBlockNumber := some closedAtEpochStartBlock.number
            referencePOI := env.proofOfIndexing pool.subgraphDeployment
              closedAtEpochStartBlock pool.allocationIndexer
            previousEpochStartBlockHash := some previousEpochStartBlock.hash
            previousEpochStartBlockNumber := some previousEpochStartBlock.number
            referencePreviousPOI := env.proofOfIndexing pool.subgraphDeployment
              previousEpochStartBlock pool.allocationIndexer }

/-- The POI status classification of part_001:790-801: `valid` when the allocation's
poi equals either reference POI (JavaScript `==`, under which two missing values are
equal), otherwise `potential`, downgraded to `reference_unavailable` when either
reference POI is falsy. The source computes this with an assignment followed by a
conditional reassignment; the if-chain here is the same function. -/
def statusOf (referencePOI referencePreviousPOI poi : Option String) : String :=
  if referencePOI == poi || referencePreviousPOI == poi then "valid"
  else if isFalsy referencePOI || isFalsy referencePreviousPOI then
    "reference_unavailable"
  else "potential"

/-- The dispute row built for one new disputable allocation and its rewards pool
(part_001:803-821). -/
def buildDispute (networkIdentifier : String) (allocation : Allocation)
    (rewardsPool : RewardsPool) : POIDispute :=
  { allocationID := allocation.id
    subgraphDeploymentID := allocation.subgraphDeployment.id.bytes32
    allocationIndexer := allocation.indexer
    allocationAmount := toString allocation.allocatedTokens
    allocationProof := allocation.poi
    closedEpoch := allocation.closedAtEpoch
    closedEpochReferenceProof := rewardsPool.referencePOI
    closedEpochStartBlockHash := allocation.closedAtEpochStartBlockHash
    closedEpochStartBlockNumber := rewardsPool.closedAtEpochStartBlockNumber
    previousEpochReferenceProof := rewardsPool.referencePreviousPOI
    previousEpochStartBlockHash := rewardsPool.previousEpochStartBlockHash
    previousEpochStartBlockNumber := rewardsPool.previousEpochStartBlockNumber
    status := statusOf rewardsPool.referencePOI rewardsPool.referencePreviousPOI
      allocation.poi
    protocolNetwork := networkIdentifier }

/-- Modelled from the spec: `Operator.fetchPOIDisputes(status, epochThreshold,
networkIdentifier)` (not under src/) loads the stored disputes with the given status for
the given network whose closed epoch is at or above the threshold (§4.6 step 1). -/
def fetchPOIDisputes (stored : List POIDispute) (status : String)
    (disputableEpoch : Int) (networkIdentifier : String) : List POIDispute :=
  stored.filter fun dispute =>
    dispute.status == status && dispute.protocolNetwork == networkIdentifier &&
      decide (disputableEpoch ≤ (dispute.closedEpoch : Int))

/-- The classification of one new disputable allocation against the enriched pools
(part_001:777-823): find the pool with the allocation's deployment and closing epoch
(structural equality, spec §3) and build its dispute row; a missing pool is the
programmer-error exception of part_001:784-788. -/
def classifyAllocation (networkIdentifier : String)
    (enrichedPools : List RewardsPool) (allocation : Allocation) :
    Except String POIDispute :=
  match enrichedPools.find? fun pool =>
      pool.subgraphDeployment == allocation.subgraphDeployment.id.bytes32 &&
        pool.closedAtEpoch == allocation.closedAtEpoch with
  | none => .error "No rewards pool found"
  | some rewardsPool => .ok (buildDispute networkIdentifier allocation rewardsPool)

/-- Source `Agent.identifyPotentialDisputes` (part_001:695-834): load the already
processed disputes (statuses `potential` and `valid`) for the epoch and network, drop
the disputable allocations already covered by them, return early when none remain;
otherwise group the remaining allocations into unique rewards pools, drop pools without
a closed-at-epoch start block hash, enrich each pool, classify each new allocation, and
hand the dispute list to `storePoiDisputes`. The result is `.ok none` when the function
returns without storing, `.ok (some disputes)` for the list passed to
`storePoiDisputes`, and `.error` when an exception escapes (caught by the caller). -/
def identifyPotentialDisputes (env : DisputeEnv) (networkIdentifier : String)
    (disputableAllocations : List Allocation) (disputableEpoch : Int)
    (stored : List POIDispute) : Except String (Option (List POIDispute)) :=
  let alreadyProcessed :=
    fetchPOIDisputes stored "potential" disputableEpoch networkIdentifier ++
      fetchPOIDisputes stored "valid" disputableEpoch networkIdentifier
  let newDisputableAllocations := disputableAllocations.filter fun allocation =>
    !(alreadyProcessed.any fun dispute => dispute.allocationID == allocation.id)
  if newDisputableAllocations.length == 0 then .ok none
  else
    match mapExcept (enrichPool env)
        ((uniqueRewardsPools (newDisputableAllocations.map allocationRewardsPool)).filter
          fun pool => !(isFalsy pool.closedAtEpochStartBlockHash)) with
    | .error e => .error e
    | .ok enrichedPools =>
      match mapExcept (classifyAllocation networkIdentifier enrichedPools)
          newDisputableAllocations with
      | .error e => .error e
      | .ok disputes => .ok (some disputes)

theorem isFalsy_eq_none_iff (x : Option String) (h : x ≠ some "") :
    isFalsy x = true ↔ x = none := by
  cases x with
  | none => simp [isFalsy]
  | some s =>
    simp only [isFalsy, beq_iff_eq]
    constructor
    · intro hs
      exact absurd (by rw [hs]) h
    · intro hs
      exact Option.noConfusion hs

/-- Claim C4: the status stored for a new disputable allocation is `valid` exactly when
its poi equals the pool's `referencePOI` or `referencePreviousPOI`,
`reference_unavailable` exactly when it would otherwise be `potential` and a reference
POI is missing, and `potential` otherwise — for reference POIs in the image of
`proofOfIndexing` (bytes or null, never the empty string). `statusOf` is the
classification `identifyPotentialDisputes` stores for each new disputable allocation
(via `buildDispute`). -/
theorem poi_classification (referencePOI referencePreviousPOI poi : Option String)
    (h1 : referencePOI ≠ some "") (h2 : referencePreviousPOI ≠ some "") :
    (statusOf referencePOI referencePreviousPOI poi = "valid" ↔
      (poi = referencePOI ∨ poi = referencePreviousPOI)) ∧
    (statusOf referencePOI referencePreviousPOI poi = "reference_unavailable" ↔
      (¬(poi = referencePOI ∨ poi = referencePreviousPOI) ∧
        (referencePOI = none ∨ referencePreviousPOI = none))) ∧
    (statusOf referencePOI referencePreviousPOI poi = "potential" ↔
      (¬(poi = referencePOI ∨ poi = referencePreviousPOI) ∧
        referencePOI ≠ none ∧ referencePreviousPOI ≠ none)) := by
  have hvalid : (referencePOI == poi || referencePreviousPOI == poi) = true ↔
      (poi = referencePOI ∨ poi = referencePreviousPOI) := by
    simp only [Bool.or_eq_true, beq_iff_eq]
    constructor
    · rintro (h | h)
      · exact Or.inl h.symm
      · exact Or.inr h.symm
    · rintro (h | h)
      · exact Or.inl h.symm
      · exact Or.inr h.symm
  have hfalsy : (isFalsy referencePOI || isFalsy referencePreviousPOI) = true ↔
      (referencePOI = none ∨ referencePreviousPOI = none) := by
    rw [Bool.or_eq_true, isFalsy_eq_none_iff _ h1, isFalsy_eq_none_iff _ h2]
  by_cases hv : (referencePOI == poi || referencePreviousPOI == poi) = true
  · rw [statusOf, if_pos hv]
    refine ⟨by simp [hvalid.mp hv], ?_, ?_⟩
    · constructor
      · intro h
        exact absurd h (by decide)
      · intro h
        exact absurd (hvalid.mp hv) h.1
    · constructor
      · intro h
        exact absurd h (by decide)
      · intro h
        exact absurd (hvalid.mp hv) h.1
  · rw [statusOf, if_neg hv]
    have hnv : ¬(poi = referencePOI ∨ poi = referencePreviousPOI) := fun h =>
      hv (hvalid.mpr h)
    by_cases hf : (isFalsy referencePOI || isFalsy referencePreviousPOI) = true
    · rw [if_pos hf]
      refine ⟨?_, ?_, ?_⟩
      · constructor
        · intro h
          exact absurd h (by decide)
        · intro h
          exact absurd h hnv
      · exact ⟨fun _ => ⟨hnv, hfalsy.mp hf⟩, fun _ => rfl⟩
      · constructor
        · intro h
          exact absurd h (by decide)
        · intro h
          rcases hfalsy.mp hf with hc | hc
          · exact absurd hc h.2.1
          · exact absurd hc h.2.2
    · rw [if_neg hf]
      have hnf : referencePOI ≠ none ∧ referencePreviousPOI ≠ none := by
        constructor
        · intro hc
          exact hf (hfalsy.mpr (Or.inl hc))
        · intro hc
          exact hf (hfalsy.mpr (Or.inr hc))
      refine ⟨?_, ?_, ?_⟩
      · constructor
        · intro h
          exact absurd h (by decide)
        · intro h
          exact absurd (hvalid.mpr h) hv
      · constructor
        · intro h
          exact absurd h (by decide)
        · intro h
          rcases h.2 with hc | hc
          · exact absurd hc hnf.1
          · exact absurd hc hnf.2
      · exact ⟨fun _ => ⟨hnv, hnf⟩, fun _ => rfl⟩

/-- Witness for the POI classification at a concrete input: a poi matching the previous
reference POI is classified `valid`. -/
theorem poi_classification_witness :
    statusOf (some "0xr") (some "0xp") (some "0xp") = "valid" :=
  ((poi_classification (some "0xr") (some "0xp") (some "0xp") (by decide)
    (by decide)).1).mpr (Or.inr rfl)

theorem mapExcept_ok_forall (f : α → Except String β) :
    ∀ (l : List α) (out : List β), mapExcept f l = .ok out →
    ∀ x ∈ l, ∃ y, f x = .ok y ∧ y ∈ out
  | [], out, h, x, hx => by simp at hx
  | a :: rest, out, h, x, hx => by
    rw [mapExcept] at h
    cases hf : f a with
    | error e =>
      rw [hf] at h
      exact Except.noConfusion h
    | ok y =>
      rw [hf] at h
      cases hrest : mapExcept f rest with
      | error e =>
        rw [hrest] at h
        exact Except.noConfusion h
      | ok ys =>
        rw [hrest] at h
        cases h
        rcases List.mem_cons.mp hx with rfl | hx1
        · exact ⟨y, hf, List.mem_cons_self _ _⟩
        · rcases mapExcept_ok_forall f rest ys hrest x hx1 with ⟨y1, hy1, hmem⟩
          exact ⟨y1, hy1, List.mem_cons_of_mem _ hmem⟩

theorem classifyAllocation_ok (networkIdentifier : String)
    (enrichedPools : List RewardsPool) (allocation : Allocation) (y : POIDispute)
    (h : classifyAllocation networkIdentifier enrichedPools allocation = .ok y) :
    y.allocationID = allocation.id ∧ y.protocolNetwork = networkIdentifier ∧
      y.closedEpoch = allocation.closedAtEpoch := by
  rw [classifyAllocation] at h
  split at h
  · exact Except.noConfusion h
  · cases h
    exact ⟨rfl, rfl, rfl⟩

/-- Counterexample to claim C5 as stated: one disputable allocation whose reference POIs
are unavailable is stored with status `reference_unavailable` by the first run; the
second run, with that dispute now stored, loads only the `potential` and `valid`
disputes, finds the same allocation new again, and issues a second, identical
`storePoiDisputes` call. -/
theorem dispute_idempotence_counterexample :
    identifyPotentialDisputes
      ⟨fun h => some ⟨1, h⟩, fun _ _ _ => none⟩ "eip155:1"
      [⟨"0xa1", "0xi", ⟨⟨"0xd", 0⟩⟩, 0, 1, 10, some "0xb1", some "0xb0",
        some "0xff"⟩]
      9 [] =
      .ok (some [⟨"0xa1", "0xd", "0xi", "0", some "0xff", 10, none, some "0xb1",
        some 1, none, some "0xb0", some 1, "reference_unavailable", "eip155:1"⟩]) ∧
    identifyPotentialDisputes
      ⟨fun h => some ⟨1, h⟩, fun _ _ _ => none⟩ "eip155:1"
      [⟨"0xa1", "0xi", ⟨⟨"0xd", 0⟩⟩, 0, 1, 10, some "0xb1", some "0xb0",
        some "0xff"⟩]
      9 [⟨"0xa1", "0xd", "0xi", "0", some "0xff", 10, none, some "0xb1",
        some 1, none, some "0xb0", some 1, "reference_unavailable", "eip155:1"⟩] =
      .ok (some [⟨"0xa1", "0xd", "0xi", "0", some "0xff", 10, none, some "0xb1",
        some 1, none, some "0xb0", some 1, "reference_unavailable", "eip155:1"⟩]) := by
  constructor
  · rfl
  · rfl

/-- Claim C5 (amended): a second run of `identifyPotentialDisputes` with unchanged
inputs and the first run's disputes stored finds no new disputable allocations and
issues no second store, provided every dispute stored by the first run has status
`potential` or `valid` and closed epoch at or above the disputable epoch; a
`reference_unavailable` dispute (or one below the epoch threshold) is not loaded as
already processed and is re-stored by the second run. -/
theorem dispute_idempotence_amended (env : DisputeEnv) (networkIdentifier : String)
    (disputableAllocations : List Allocation) (disputableEpoch : Int)
    (stored D : List POIDispute)
    (h1 : identifyPotentialDisputes env networkIdentifier disputableAllocations
      disputableEpoch stored = .ok (some D))
    (hstatus : ∀ d ∈ D, d.status = "potential" ∨ d.status = "valid")
    (hepoch : ∀ d ∈ D, disputableEpoch ≤ (d.closedEpoch : Int)) :
    identifyPotentialDisputes env networkIdentifier disputableAllocations
      disputableEpoch (stored ++ D) = .ok none := by
  simp only [identifyPotentialDisputes] at h1
  split at h1
  · exact absurd (Except.ok.inj h1) (by simp)
  · split at h1
    · exact Except.noConfusion h1
    · split at h1
      · exact Except.noConfusion h1
      · next disputes hmap =>
        have hD : disputes = D := Option.some.inj (Except.ok.inj h1)
        subst hD
        have hnil : (disputableAllocations.filter fun allocation =>
            !((fetchPOIDisputes (stored ++ disputes) "potential" disputableEpoch
                networkIdentifier ++
              fetchPOIDisputes (stored ++ disputes) "valid" disputableEpoch
                networkIdentifier).any fun dispute =>
                  dispute.allocationID == allocation.id)) = [] := by
          rw [List.filter_eq_nil_iff]
          intro a ha hcon
          rw [Bool.not_eq_eq_eq_not, Bool.not_true] at hcon
          have hsome : ((fetchPOIDisputes (stored ++ disputes) "potential"
              disputableEpoch networkIdentifier ++
            fetchPOIDisputes (stored ++ disputes) "valid" disputableEpoch
              networkIdentifier).any fun dispute =>
                dispute.allocationID == a.id) = true := by
            by_cases hin : ((fetchPOIDisputes stored "potential" disputableEpoch
                networkIdentifier ++
              fetchPOIDisputes stored "valid" disputableEpoch
                networkIdentifier).any fun dispute =>
                  dispute.allocationID == a.id) = true
            · rcases List.any_eq_true.mp hin with ⟨dispute, hd, hdid⟩
              apply List.any_eq_true.mpr
              refine ⟨dispute, ?_, hdid⟩
              rw [fetchPOIDisputes, fetchPOIDisputes, List.filter_append,
                List.filter_append]
              rcases List.mem_append.mp hd with h | h
              · exact List.mem_append.mpr (Or.inl (List.mem_append.mpr (Or.inl
                  (by rw [fetchPOIDisputes] at h; exact h))))
              · exact List.mem_append.mpr (Or.inr (List.mem_append.mpr (Or.inl
                  (by rw [fetchPOIDisputes] at h; exact h))))
            · have hanew : a ∈ disputableAllocations.filter fun allocation =>
                  !((fetchPOIDisputes stored "potential" disputableEpoch
                      networkIdentifier ++
                    fetchPOIDisputes stored "valid" disputableEpoch
                      networkIdentifier).any fun dispute =>
                        dispute.allocationID == allocation.id) := by
                refine List.mem_filter.mpr ⟨ha, ?_⟩
                simp only [Bool.not_eq_true] at hin
                rw [hin]
                rfl
              rcases mapExcept_ok_forall _ _ _ hmap a hanew with ⟨y, hy, hymem⟩
              rcases classifyAllocation_ok _ _ _ _ hy with ⟨hid, hnet, hce⟩
              apply List.any_eq_true.mpr
              refine ⟨y, ?_, by rw [hid]; simp⟩
              apply List.mem_append.mpr
              rcases hstatus y hymem with hs | hs
              · refine Or.inl ?_
                rw [fetchPOIDisputes]
                refine List.mem_filter.mpr ⟨List.mem_append.mpr (Or.inr hymem), ?_⟩
                simp [hs, hnet, hepoch y hymem]
              · refine Or.inr ?_
                rw [fetchPOIDisputes]
                refine List.mem_filter.mpr ⟨List.mem_append.mpr (Or.inr hymem), ?_⟩
                simp [hs, hnet, hepoch y hymem]
          rw [hsome] at hcon
          exact Bool.noConfusion hcon
        simp only [identifyPotentialDisputes]
        rw [hnil]
        rfl

/-- Witness for the remove-set characterization at a concrete input: the deployment
backing an eligible allocation (bytes32 `0xd3`) differs from the one entry of the
computed remove set (bytes32 `0xd2`). -/
theorem remove_eq_active_minus_target_union_eligible_witness :
    (SubgraphDeploymentID.mk "0xd2" 2).bytes32 ≠
      (Allocation.mk "0xa1" "0xi" ⟨⟨"0xd3", 3⟩⟩ 0 1 0 none none
        none).subgraphDeployment.id.bytes32 :=
  (remove_eq_active_minus_target_union_eligible [] [] [⟨"0xd1", 1⟩, ⟨"0xd2", 2⟩]
    [⟨"0xd1", 1⟩] [⟨"0xa1", "0xi", ⟨⟨"0xd3", 3⟩⟩, 0, 1, 0, none, none, none⟩]).2
    ⟨"0xa1", "0xi", ⟨⟨"0xd3", 3⟩⟩, 0, 1, 0, none, none, none⟩ (by decide)
    ⟨"0xd2", 2⟩ (by decide)

/-- Witness for the deploy/remove disjointness at a concrete input: the deployed entry
`0xd4` and the removed entry `0xd1` have different `bytes32`. -/
theorem deploy_remove_disjoint_witness :
    (SubgraphDeploymentID.mk "0xd4" 4).bytes32 ≠
      (SubgraphDeploymentID.mk "0xd1" 1).bytes32 :=
  (deploy_remove_disjoint [] [] [⟨"0xd1", 1⟩] [⟨"0xd4", 4⟩] []).2.2
    ⟨"0xd4", 4⟩ (by decide) ⟨"0xd1", 1⟩ (by decide)

/-- Witness for the target-deployment union at a concrete input: the identifier of an
OFFCHAIN rule appears (by `bytes32`) in the emitted value. -/
theorem targetDeployments_bytes32_union_witness :
    bytesMem (targetDeploymentsValue
      [("eip155:1", [⟨⟨"0xd", 0⟩, true, ⟨none, "rules"⟩⟩])]
      [("eip155:1", [⟨"0xe", SubgraphIdentifierType.DEPLOYMENT,
        IndexingDecisionBasis.OFFCHAIN, 0, none, "eip155:1"⟩])]
      [⟨"0xf", 1⟩] 2) "0xe" = true :=
  (targetDeployments_bytes32_union
    [("eip155:1", [⟨⟨"0xd", 0⟩, true, ⟨none, "rules"⟩⟩])]
    [("eip155:1", [⟨"0xe", SubgraphIdentifierType.DEPLOYMENT,
      IndexingDecisionBasis.OFFCHAIN, 0, none, "eip155:1"⟩])]
    [⟨"0xf", 1⟩] 2 "0xe" (by decide) (by decide)).trans (by decide)

/-- Witness for the rule-normalization frame at a concrete input: a NEVER-basis
DEPLOYMENT rule is returned unchanged at position 0. -/
theorem convert_preserves_input_rules_witness :
    ∃ o, (convertSubgraphBasedRulesToDeploymentBased
        [⟨"QmX", SubgraphIdentifierType.DEPLOYMENT, IndexingDecisionBasis.NEVER, 0,
          none, "eip155:1"⟩] [] 0 0)[0]? = some o ∧
      o.decisionBasis = IndexingDecisionBasis.NEVER ∧
      o.allocationAmount = 0 ∧
      o.allocationLifetime = none ∧
      o.protocolNetwork = "eip155:1" ∧
      ((⟨"QmX", SubgraphIdentifierType.DEPLOYMENT, IndexingDecisionBasis.NEVER, 0,
          none, "eip155:1"⟩ : IndexingRule).identifierType ≠
        SubgraphIdentifierType.SUBGRAPH →
        o = ⟨"QmX", SubgraphIdentifierType.DEPLOYMENT, IndexingDecisionBasis.NEVER, 0,
          none, "eip155:1"⟩) :=
  (convert_preserves_input_rules
    [⟨"QmX", SubgraphIdentifierType.DEPLOYMENT, IndexingDecisionBasis.NEVER, 0, none,
      "eip155:1"⟩] [] 0 0).2 0
    ⟨"QmX", SubgraphIdentifierType.DEPLOYMENT, IndexingDecisionBasis.NEVER, 0, none,
      "eip155:1"⟩ (by decide)

/-- Witness for the amended rule normalization at a concrete input: a SUBGRAPH rule
whose subgraph and latest version are found is rewritten in place (or its deployment is
already targeted by the main list). -/
theorem convert_rule_normalization_amended_witness :
    ∃ o, ((convertSubgraphBasedRulesToDeploymentBased
        [⟨"sg1", SubgraphIdentifierType.SUBGRAPH, IndexingDecisionBasis.RULES, 0,
          none, "eip155:1"⟩]
        [⟨"sg1", 1, [⟨0, 0, ⟨"QmA", 5⟩⟩]⟩] 0 100).take 1)[0]? = some o ∧
      (o = rewriteRule
          ⟨"sg1", SubgraphIdentifierType.SUBGRAPH, IndexingDecisionBasis.RULES, 0,
            none, "eip155:1"⟩ ⟨"QmA", 5⟩ ∨
        (o = ⟨"sg1", SubgraphIdentifierType.SUBGRAPH, IndexingDecisionBasis.RULES, 0,
            none, "eip155:1"⟩ ∧
          deploymentRuleInList ((convertSubgraphBasedRulesToDeploymentBased
            [⟨"sg1", SubgraphIdentifierType.SUBGRAPH, IndexingDecisionBasis.RULES, 0,
              none, "eip155:1"⟩]
            [⟨"sg1", 1, [⟨0, 0, ⟨"QmA", 5⟩⟩]⟩] 0 100).take 1) ⟨"QmA", 5⟩ = true)) :=
  (convert_rule_normalization_amended
    [⟨"sg1", SubgraphIdentifierType.SUBGRAPH, IndexingDecisionBasis.RULES, 0, none,
      "eip155:1"⟩]
    [⟨"sg1", 1, [⟨0, 0, ⟨"QmA", 5⟩⟩]⟩] 0 100).1 0
    ⟨"sg1", SubgraphIdentifierType.SUBGRAPH, IndexingDecisionBasis.RULES, 0, none,
      "eip155:1"⟩
    ⟨"sg1", 1, [⟨0, 0, ⟨"QmA", 5⟩⟩]⟩ ⟨0, 0, ⟨"QmA", 5⟩⟩
    (by decide) rfl (by decide) (by decide)

/-- Witness for the expiring-allocation characterization at a concrete input: a set,
nonzero rule lifetime of 5 is the desired lifetime. -/
theorem identifyExpiring_spec_witness :
    desiredAllocationLifetime
      ⟨⟨"0xd", 0⟩, true, ⟨some ⟨"0xd", SubgraphIdentifierType.DEPLOYMENT,
        IndexingDecisionBasis.RULES, 0, some 5, "eip155:1"⟩, "rules"⟩⟩ 28 = 5 :=
  (identifyExpiring_spec (fun _ => none) []
    ⟨⟨"0xd", 0⟩, true, ⟨some ⟨"0xd", SubgraphIdentifierType.DEPLOYMENT,
      IndexingDecisionBasis.RULES, 0, some 5, "eip155:1"⟩, "rules"⟩⟩ 100 28).2.1
    ⟨"0xd", SubgraphIdentifierType.DEPLOYMENT, IndexingDecisionBasis.RULES, 0, some 5,
      "eip155:1"⟩ 5 rfl rfl (by decide)

/-- Witness for manual-mode isolation at a concrete input: with the single network in
MANUAL mode, the reconciler issues no calls. -/
theorem manual_mode_isolation_witness :
    reconcileActions
      (fun _ => ⟨AllocationManagementMode.MANUAL, none, false, [], fun _ => [],
        fun _ => none⟩)
      [("eip155:1", [⟨⟨"0xd", 0⟩, true, ⟨none, "rules"⟩⟩])] [] (fun _ => 100)
      (fun _ => 28) = [] :=
  (manual_mode_isolation
    (fun _ => ⟨AllocationManagementMode.MANUAL, none, false, [], fun _ => [],
      fun _ => none⟩)
    [("eip155:1", [⟨⟨"0xd", 0⟩, true, ⟨none, "rules"⟩⟩])] [] (fun _ => 100)
    (fun _ => 28)).2 (fun _ _ => rfl)

/-- Witness for the network-subgraph guard frame at a concrete input: the forced
decision keeps its deployment and rule match; the untouched fields of the list are
preserved. -/
theorem network_subgraph_guard_frame_witness :
    (AllocationDecision.mk ⟨"0xn", 0⟩ false ⟨none, "never"⟩).deployment =
      (AllocationDecision.mk ⟨"0xn", 0⟩ true ⟨none, "never"⟩).deployment ∧
    (AllocationDecision.mk ⟨"0xn", 0⟩ false ⟨none, "never"⟩).ruleMatch =
      (AllocationDecision.mk ⟨"0xn", 0⟩ true ⟨none, "never"⟩).ruleMatch ∧
    ((AllocationDecision.mk ⟨"0xn", 0⟩ false ⟨none, "never"⟩).toAllocate = true →
      (AllocationDecision.mk ⟨"0xn", 0⟩ true ⟨none, "never"⟩).toAllocate = true) :=
  (network_subgraph_guard_frame (some ⟨"0xn", 0⟩) false
    [⟨⟨"0xn", 0⟩, true, ⟨none, "never"⟩⟩]).2.1 0
    ⟨⟨"0xn", 0⟩, true, ⟨none, "never"⟩⟩ ⟨⟨"0xn", 0⟩, false, ⟨none, "never"⟩⟩
    (by decide) (by decide)

/-- Witness for the amended dispute idempotence at a concrete input: after a first run
that stores a `valid` dispute, the second run with that dispute stored issues no second
store. -/
theorem dispute_idempotence_amended_witness :
    identifyPotentialDisputes ⟨fun h => some ⟨1, h⟩, fun _ _ _ => some "0xff"⟩
      "eip155:1"
      [⟨"0xa1", "0xi", ⟨⟨"0xd", 0⟩⟩, 0, 1, 10, some "0xb1", some "0xb0",
        some "0xff"⟩] 9
      ([] ++ [⟨"0xa1", "0xd", "0xi", "0", some "0xff", 10, some "0xff", some "0xb1",
        some 1, some "0xff", some "0xb0", some 1, "valid", "eip155:1"⟩]) =
      .ok none :=
  dispute_idempotence_amended ⟨fun h => some ⟨1, h⟩, fun _ _ _ => some "0xff"⟩
    "eip155:1"
    [⟨"0xa1", "0xi", ⟨⟨"0xd", 0⟩⟩, 0, 1, 10, some "0xb1", some "0xb0", some "0xff"⟩]
    9 []
    [⟨"0xa1", "0xd", "0xi", "0", some "0xff", 10, some "0xff", some "0xb1", some 1,
      some "0xff", some "0xb0", some 1, "valid", "eip155:1"⟩]
    (by rfl) (by decide) (by decide)

end IndexerAgent
